import Mathlib

/-!
Verification of the netconfigops hierarchical configuration pipeline.

The repository's filter plugin (`plugins/filter/hier_config.py`) is thin glue
around a hierarchical-configuration engine: it parses two indentation
structured configuration texts, computes a structural diff, and renders a
unified diff, a remediation command sequence and a rollback command sequence,
wrapping any failure of a stage in a single descriptive error value.  The
engine itself (line/tree model, parser, tag rule engine, diff engine,
remediation/rollback builders, renderer) is not part of the repository's
source; everything below that is not the literal glue is modelled from the
specification of that engine.  Machine strings are handled at the character
list level so that every definition evaluates inside the kernel.
-/

set_option maxRecDepth 4000

namespace NetCfg

/-- Whitespace characters relevant for indentation handling. -/
def isWS (c : Char) : Bool := c == ' ' || c == '\t' || c == '\r'

def dropWS (cs : List Char) : List Char := cs.dropWhile isWS

/-- Indentation depth of a raw line: number of leading whitespace characters. -/
def indentOf (cs : List Char) : Nat := cs.length - (dropWS cs).length

/-- Strip leading and trailing whitespace from a raw line. -/
def stripChars (cs : List Char) : List Char :=
  ((dropWS ((dropWS cs).reverse)).reverse)

/-- Split a character stream into lines at newline characters. -/
def splitLines : List Char → List (List Char)
  | [] => [[]]
  | c :: rest =>
    if c == '\n' then [] :: splitLines rest
    else
      match splitLines rest with
      | l :: ls => (c :: l) :: ls
      | [] => [[c]]

/-- Modelled from the spec: the Line/Tree Model node (`ConfigLine`).  A node
holds the stripped text of one configuration statement, the tags attached by
the Tag Rule Engine, and the ordered list of child statements.  The engine
itself lives outside the repository source, so the type follows §3 of the
specification. -/
inductive CL where
  | node (text : String) (tags : List String) (children : List CL)
deriving Repr

def CL.textOf : CL → String
  | .node t _ _ => t

def CL.tagsOf : CL → List String
  | .node _ tg _ => tg

def CL.childrenOf : CL → List CL
  | .node _ _ cs => cs

def textsOf (ns : List CL) : List String := ns.map CL.textOf

def hasText (ns : List CL) (t : String) : Bool := (textsOf ns).contains t

def findText (t : String) (ns : List CL) : Option CL :=
  ns.find? (fun n => n.textOf == t)

/-- A parser stack entry: depth of the open statement, its text, and the
children accumulated so far. -/
abbrev PEntry := Nat × String × List CL

def stackDepths (stk : List PEntry) : List Nat := stk.map (·.1)

/-- Legality of a new line depth against the pure depth stack: the depth must
strictly exceed the previous line's depth (new child) or match an open
ancestor's depth exactly (sibling at an existing level). -/
def legalDepths (d : Nat) (stk : List Nat) : Bool :=
  match stk with
  | [] => true
  | d' :: _ => decide (d' < d) || stk.contains d

def legalDepth (d : Nat) (stk : List PEntry) : Bool :=
  legalDepths d (stackDepths stk)

/-- Fold a run of closed entries (top of stack first) into a single nested
node: each closed statement becomes the last child of the statement below. -/
def rollupNode : CL → List PEntry → CL
  | n, [] => n
  | n, (_, t, cs) :: rest => rollupNode (CL.node t [] (cs ++ [n])) rest

/-- Close every open entry of depth at least `d`: the closed run is folded
into one nested node attached to the new stack top (or to the root list). -/
def popGE (d : Nat) (stk : List PEntry) (roots : List CL) :
    List PEntry × List CL :=
  match stk.takeWhile (fun e => decide (d ≤ e.1)) with
  | [] => (stk, roots)
  | (_, t1, cs1) :: restPopped =>
    let n := rollupNode (CL.node t1 [] cs1) restPopped
    match stk.dropWhile (fun e => decide (d ≤ e.1)) with
    | [] => ([], roots ++ [n])
    | (d2, t2, cs2) :: r2 => ((d2, t2, cs2 ++ [n]) :: r2, roots)

/-- Remove the first child with the given text, returning its children (for
re-opening) and the remaining siblings. -/
def extractChild (t : String) : List CL → Option (List CL) × List CL
  | [] => (none, [])
  | c :: cs =>
    if c.textOf == t then (some c.childrenOf, cs)
    else
      match extractChild t cs with
      | (r, cs') => (r, c :: cs')

/-- Open a new statement at depth `d`.  Modelled from the spec: a statement
whose text already exists under the same parent re-opens the existing node
(the engine keys children by text), so duplicate sibling texts merge. -/
def openEntry (d : Nat) (txt : String) (stk : List PEntry) (roots : List CL) :
    List PEntry × List CL :=
  match stk with
  | [] =>
    match extractChild txt roots with
    | (found, rest) => ([(d, txt, found.getD [])], rest)
  | (d2, t2, cs2) :: r2 =>
    match extractChild txt cs2 with
    | (found, rest) => ((d, txt, found.getD []) :: (d2, t2, rest) :: r2, roots)

def isCommentLine : List Char → Bool
  | '!' :: _ => true
  | _ => false

/-- Modelled from the spec: one parser step.  Blank and comment lines are
skipped; otherwise the line's indentation depth is checked for consistency,
open deeper statements are closed, and the line is opened as a new statement. -/
def parseStep (st : List PEntry × List CL) (line : List Char) :
    Except String (List PEntry × List CL) :=
  let stripped := stripChars line
  if stripped.isEmpty then .ok st
  else if isCommentLine stripped then .ok st
  else
    let d := indentOf line
    if legalDepth d st.1 then
      match popGE d st.1 st.2 with
      | (stk, roots) => .ok (openEntry d (String.mk stripped) stk roots)
    else .error ("inconsistent indentation: " ++ String.mk stripped)

def parseFold : List (List Char) → List PEntry × List CL →
    Except String (List PEntry × List CL)
  | [], st => .ok st
  | l :: ls, st =>
    match parseStep st l with
    | .ok st' => parseFold ls st'
    | .error e => .error e

/-- Modelled from the spec: the Parser.  Returns the forest of top-level
statements, or a parse failure on inconsistent indentation. -/
def parseLines (lines : List (List Char)) : Except String (List CL) :=
  match parseFold lines ([], []) with
  | .ok (stk, roots) => .ok (popGE 0 stk roots).2
  | .error e => .error e

def parseConfig (s : String) : Except String (List CL) :=
  parseLines (splitLines s.toList)

/-- Significant lines: neither blank nor comments. -/
def isSig (l : List Char) : Bool :=
  !(stripChars l).isEmpty && !isCommentLine (stripChars l)

def sigDepths (lines : List (List Char)) : List Nat :=
  (lines.filter isSig).map indentOf

/-- The pure indentation machine abstracting the parser: only the stack of
open depths is tracked. -/
def depthRun : List Nat → List Nat → Option (List Nat)
  | [], stk => some stk
  | d :: ds, stk =>
    if legalDepths d stk then
      depthRun ds (d :: stk.dropWhile (fun x => decide (d ≤ x)))
    else none

def depthsOK (ds : List Nat) : Bool := (depthRun ds []).isSome

mutual
/-- Sibling texts are pairwise distinct at this node, recursively. -/
def uniqT : CL → Bool
  | .node _ _ cs => uniqF cs
def uniqF : List CL → Bool
  | [] => true
  | n :: ns => !(textsOf ns).contains n.textOf && uniqT n && uniqF ns
end

/-- Modelled from the spec: the closed set of Tag Rule match predicates over
a node's full path (regular-expression rules are outside the model). -/
inductive TagMatch where
  | exactPath (p : List String)
  | underPath (p : List String)
  | headAnyOf (ss : List String)
deriving Repr

/-- Modelled from the spec: a tag rule, an ordered match predicate plus the
tags it attaches. -/
structure TagRule where
  mtch : TagMatch
  tags : List String
deriving Repr

def listStarts : List Char → List Char → Bool
  | [], _ => true
  | _ :: _, [] => false
  | a :: as, b :: bs => a == b && listStarts as bs

def strStarts (p s : String) : Bool := listStarts p.toList s.toList

def initSeg : List String → List String → Bool
  | [], _ => true
  | _ :: _, [] => false
  | a :: as, b :: bs => a == b && initSeg as bs

def tagMatchesP (m : TagMatch) (path : List String) : Bool :=
  match m with
  | .exactPath p => path == p
  | .underPath p => initSeg p path
  | .headAnyOf ss =>
    match path.getLast? with
    | some t => ss.any (fun s => strStarts s t)
    | none => false

/-- The tags the ordered rule list attaches to a node with the given full
path, in declaration order. -/
def ruleTagsP (rules : List TagRule) (path : List String) : List String :=
  match rules with
  | [] => []
  | r :: rs => (if tagMatchesP r.mtch path then r.tags else []) ++ ruleTagsP rs path

mutual
/-- Modelled from the spec: the Tag Rule Engine applied to one node, `anc`
being the texts of the node's ancestors. -/
def tagT (rules : List TagRule) (anc : List String) : CL → CL
  | .node t tg cs => .node t (tg ++ ruleTagsP rules (anc ++ [t])) (tagF rules (anc ++ [t]) cs)
def tagF (rules : List TagRule) (anc : List String) : List CL → List CL
  | [] => []
  | n :: ns => tagT rules anc n :: tagF rules anc ns
end

mutual
/-- All (full path, tag set) pairs of a tree, in pre-order. -/
def collectT (anc : List String) : CL → List (List String × List String)
  | .node t tg cs => (anc ++ [t], tg) :: collectF (anc ++ [t]) cs
def collectF (anc : List String) : List CL → List (List String × List String)
  | [] => []
  | n :: ns => collectT anc n ++ collectF anc ns
end

/-- Diff classification of a node. -/
inductive DClass where
  | unchanged | removed | added
deriving Repr, DecidableEq, BEq

/-- A classified node of the diff result. -/
inductive DNode where
  | node (text : String) (tags : List String) (cls : DClass) (children : List DNode)
deriving Repr

def DNode.textOf : DNode → String
  | .node t _ _ _ => t

def DNode.tagsOf : DNode → List String
  | .node _ tg _ _ => tg

def DNode.clsOf : DNode → DClass
  | .node _ _ c _ => c

def DNode.childrenOf : DNode → List DNode
  | .node _ _ _ cs => cs

mutual
/-- Mark a whole subtree with one classification. -/
def markT (c : DClass) : CL → DNode
  | .node t tg cs => .node t tg c (markF c cs)
def markF (c : DClass) : List CL → List DNode
  | [] => []
  | n :: ns => markT c n :: markF c ns
end

mutual
/-- Modelled from the spec: the Diff Engine's treatment of one base node.
A base node whose text also occurs under the same parent path in the target
is unchanged and its children are co-traversed; the co-traversal of the
children inlines `diffForest`. -/
def diffT : CL → List CL → List DNode
  | CL.node t tg cs, ts =>
    match findText t ts with
    | some tn =>
      [DNode.node t tg .unchanged
        (markF .removed (cs.filter (fun b => !hasText tn.childrenOf b.textOf))
         ++ markF .added (tn.childrenOf.filter (fun c => !hasText cs c.textOf))
         ++ diffMatched cs tn.childrenOf)]
    | none => []
def diffMatched : List CL → List CL → List DNode
  | [], _ => []
  | n :: rest, ts => diffT n ts ++ diffMatched rest ts
end

/-- Modelled from the spec: the Diff Engine.  Nodes only in `bs` are removed
with their subtrees, nodes only in `ts` are added with their subtrees, nodes
present in both (matched by full path, i.e. by text under a common parent
path) are unchanged and recursed into. -/
def diffForest (bs ts : List CL) : List DNode :=
  markF .removed (bs.filter (fun b => !hasText ts b.textOf))
  ++ markF .added (ts.filter (fun c => !hasText bs c.textOf))
  ++ diffMatched bs ts

/-- Invert a classification (swap removed and added). -/
def invertCls : DClass → DClass
  | .removed => .added
  | .added => .removed
  | .unchanged => .unchanged

mutual
def invertT : DNode → DNode
  | .node t tg c cs => .node t tg (invertCls c) (invertF cs)
def invertF : List DNode → List DNode
  | [] => []
  | n :: ns => invertT n :: invertF ns
end

/-- Full-path membership in a tree (descending by text at each level). -/
def pathMem (ns : List CL) : List String → Bool
  | [] => false
  | t :: p =>
    match findText t ns with
    | some n => p.isEmpty || pathMem n.childrenOf p
    | none => false

/-- The tag set of the node at a full path. -/
def tagsAt (ns : List CL) : List String → Option (List String)
  | [] => none
  | t :: p =>
    match findText t ns with
    | some n => if p.isEmpty then some n.tagsOf else tagsAt n.childrenOf p
    | none => none

def findDText (t : String) (ns : List DNode) : Option DNode :=
  ns.find? (fun n => n.textOf == t)

/-- The classification the diff result assigns to a full path. -/
def classOf (ns : List DNode) : List String → Option DClass
  | [] => none
  | t :: p =>
    match findDText t ns with
    | some n => if p.isEmpty then some n.clsOf else classOf n.childrenOf p
    | none => none

/-- An emitted line of the remediation/rollback builder: depth, the kind of
emission (a removal command, an addition command, or plain context), the
statement text and the originating node's tags. -/
structure EmitLine where
  depth : Nat
  kind : DClass
  text : String
  tags : List String
deriving Repr, DecidableEq

/-- Modelled from the spec: tag filtering.  A node passes if `inc` is empty
or intersects its tags, and `exc` is empty or avoids its tags. -/
def passesTags (inc exc : List String) (tg : List String) : Bool :=
  (inc.isEmpty || tg.any (fun x => inc.contains x)) &&
  (exc.isEmpty || !tg.any (fun x => exc.contains x))

mutual
/-- Modelled from the spec: the Remediation Builder's emission for one
classified node.  A removed node emits its negation only (child removals are
implied, so the subtree is not entered); an added node emits itself and its
subtree, or is kept as plain context when it is filtered out but a descendant
still emits; an unchanged node is emitted as context exactly when something
below it emits. -/
def emitOne (inc exc : List String) (depth : Nat) : DNode → List EmitLine
  | .node t tg .removed _ =>
    if passesTags inc exc tg then [⟨depth, .removed, t, tg⟩] else []
  | .node t tg .added cs =>
    let sub := emitSel inc exc (depth + 1) .removed cs
      ++ emitSel inc exc (depth + 1) .added cs
      ++ emitSel inc exc (depth + 1) .unchanged cs
    if passesTags inc exc tg then ⟨depth, .added, t, tg⟩ :: sub
    else if sub.isEmpty then [] else ⟨depth, .unchanged, t, tg⟩ :: sub
  | .node t tg .unchanged cs =>
    let sub := emitSel inc exc (depth + 1) .removed cs
      ++ emitSel inc exc (depth + 1) .added cs
      ++ emitSel inc exc (depth + 1) .unchanged cs
    if sub.isEmpty then [] else ⟨depth, .unchanged, t, tg⟩ :: sub
/-- Emission of the nodes of one classification group, in tree order. -/
def emitSel (inc exc : List String) (depth : Nat) (c : DClass) : List DNode → List EmitLine
  | [] => []
  | n :: ns =>
    (if n.clsOf == c then emitOne inc exc depth n else []) ++ emitSel inc exc depth c ns
end

/-- Modelled from the spec: the Remediation Builder's emission for a level:
removals first, then additions, then unchanged context blocks, each group in
tree order. -/
def emitForest (inc exc : List String) (depth : Nat) (ns : List DNode) : List EmitLine :=
  emitSel inc exc depth .removed ns ++ emitSel inc exc depth .added ns
  ++ emitSel inc exc depth .unchanged ns

def remediationLines (inc exc : List String) (bs ts : List CL) : List EmitLine :=
  emitForest inc exc 0 (diffForest bs ts)

/-- Modelled from the spec: the Rollback Builder reuses the already computed
classification with removed and added inverted, emitted unfiltered. -/
def rollbackLines (bs ts : List CL) : List EmitLine :=
  emitForest [] [] 0 (invertF (diffForest bs ts))

def indentStr (d : Nat) : String := String.mk (List.replicate (2 * d) ' ')

/-- Modelled from the spec: the Renderer for one emitted line; removals get
the vendor negation `no `. -/
def renderLine (l : EmitLine) : String :=
  match l.kind with
  | .removed => indentStr l.depth ++ "no " ++ l.text
  | _ => indentStr l.depth ++ l.text

def remediationText (inc exc : List String) (bs ts : List CL) : String :=
  String.intercalate "\n" ((remediationLines inc exc bs ts).map renderLine)

mutual
/-- Modelled from the spec: the unified diff view of one classified node.
Changed subtrees are shown whole with plus or minus markers; unchanged nodes appear as
context exactly when a descendant changed. -/
def viewOne (depth : Nat) : DNode → List String
  | .node t _ .removed cs => ("- " ++ indentStr depth ++ t) :: viewList (depth + 1) cs
  | .node t _ .added cs => ("+ " ++ indentStr depth ++ t) :: viewList (depth + 1) cs
  | .node t _ .unchanged cs =>
    let sub := viewList (depth + 1) cs
    if sub.isEmpty then [] else ("  " ++ indentStr depth ++ t) :: sub
def viewList (depth : Nat) : List DNode → List String
  | [] => []
  | n :: ns => viewOne depth n ++ viewList depth ns
end

/-- The `unified_diff` filter entry point of the plugin: parse both texts,
render the diff view, append a trailing newline; any stage failure becomes a
single error value. -/
def unified_diff_filter (running generated : String) : Except String String :=
  match parseConfig running with
  | .error e => .error ("Error generating unified diff: " ++ e)
  | .ok bt =>
    match parseConfig generated with
    | .error e => .error ("Error generating unified diff: " ++ e)
    | .ok tt => .ok (String.intercalate "\n" (viewList 0 (diffForest bt tt)) ++ "\n")

/-- The `remediation_config` filter entry point of the plugin: remediation is
computed with empty include and exclude tag sets, with a trailing newline. -/
def remediation_config_filter (running generated : String) : Except String String :=
  match parseConfig running with
  | .error e => .error ("Error generating remediation config: " ++ e)
  | .ok bt =>
    match parseConfig generated with
    | .error e => .error ("Error generating remediation config: " ++ e)
    | .ok tt => .ok (remediationText [] [] bt tt ++ "\n")

/-- The `rollback_config` filter entry point of the plugin: unfiltered
emission of the inverted classification, with a trailing newline. -/
def rollback_config_filter (running generated : String) : Except String String :=
  match parseConfig running with
  | .error e => .error ("Error generating rollback config: " ++ e)
  | .ok bt =>
    match parseConfig generated with
    | .error e => .error ("Error generating rollback config: " ++ e)
    | .ok tt => .ok (String.intercalate "\n" ((rollbackLines bt tt).map renderLine) ++ "\n")

/-- Permutation of siblings at any level, leaving texts, tags and the
parent/child structure unchanged. -/
inductive SPerm : List CL → List CL → Prop where
  | nil : SPerm [] []
  | cons (t : String) (tg : List String) (cs cs' : List CL) (l l' : List CL) :
      SPerm cs cs' → SPerm l l' → SPerm (CL.node t tg cs :: l) (CL.node t tg cs' :: l')
  | swap (a b : CL) (l : List CL) : SPerm (a :: b :: l) (b :: a :: l)
  | trans {l1 l2 l3 : List CL} : SPerm l1 l2 → SPerm l2 l3 → SPerm l1 l3

/-- The sibling texts against which a parser entry's own text must be fresh:
the accumulated children of the entry below it, or the root list. -/
def belowTexts : List PEntry → List CL → List String
  | [], roots => textsOf roots
  | (_, _, cs2) :: _, _ => textsOf cs2

/-- The parser invariant: every accumulated child list has pairwise distinct
sibling texts (recursively), and each open entry's text does not clash with
the siblings it will be appended to when it closes. -/
def chainOK : List PEntry → List CL → Prop
  | [], roots => uniqF roots = true
  | (_, t, cs) :: rest, roots =>
    uniqF cs = true ∧ (belowTexts rest roots).contains t = false ∧ chainOK rest roots

/-! Basic facts about text lookup. -/

theorem findText_nil (t : String) : findText t [] = none := rfl

theorem findText_cons_self {t : String} {n : CL} (ns : List CL) (h : n.textOf = t) :
    findText t (n :: ns) = some n := by
  unfold findText
  rw [List.find?_cons_of_pos]
  simp [h]

theorem findText_cons_ne {t : String} {n : CL} (ns : List CL) (h : n.textOf ≠ t) :
    findText t (n :: ns) = findText t ns := by
  unfold findText
  rw [List.find?_cons_of_neg]
  simp [h]

theorem findDText_cons_self {t : String} {n : DNode} (ns : List DNode) (h : n.textOf = t) :
    findDText t (n :: ns) = some n := by
  unfold findDText
  rw [List.find?_cons_of_pos]
  simp [h]

theorem findDText_cons_ne {t : String} {n : DNode} (ns : List DNode) (h : n.textOf ≠ t) :
    findDText t (n :: ns) = findDText t ns := by
  unfold findDText
  rw [List.find?_cons_of_neg]
  simp [h]

theorem findDText_append (t : String) (l1 l2 : List DNode) :
    findDText t (l1 ++ l2) = (findDText t l1).or (findDText t l2) := by
  unfold findDText
  exact List.find?_append

theorem findText_mem {t : String} {ns : List CL} {n : CL} (h : findText t ns = some n) :
    n ∈ ns :=
  List.mem_of_find?_eq_some h

theorem findText_text {t : String} {ns : List CL} {n : CL} (h : findText t ns = some n) :
    n.textOf = t := by
  have h2 := List.find?_some h
  simpa using h2

theorem findText_eq_none_iff {t : String} {ns : List CL} :
    findText t ns = none ↔ ∀ n ∈ ns, n.textOf ≠ t := by
  unfold findText
  rw [List.find?_eq_none]
  simp

theorem hasText_eq_isSome : ∀ (ns : List CL) (t : String),
    hasText ns t = (findText t ns).isSome
  | [], _ => rfl
  | n :: ns, t => by
    by_cases h : n.textOf = t
    · rw [findText_cons_self ns h]
      simp [hasText, textsOf, h]
    · rw [findText_cons_ne ns h]
      have h1 : (t == n.textOf) = false := by simp [Ne.symm h]
      simp only [hasText, textsOf, List.map_cons, List.contains_cons, h1, Bool.false_or]
      exact hasText_eq_isSome ns t

theorem hasText_false_of_findText_none {t : String} {ns : List CL}
    (h : findText t ns = none) : hasText ns t = false := by
  rw [hasText_eq_isSome, h]
  rfl

theorem hasText_true_of_findText_some {t : String} {ns : List CL} {n : CL}
    (h : findText t ns = some n) : hasText ns t = true := by
  rw [hasText_eq_isSome, h]
  rfl

/-! Unfolding helpers for path membership, tag lookup and classification. -/

theorem pathMem_nil (ns : List CL) : pathMem ns [] = false := rfl

theorem pathMem_cons_some {t : String} {ns : List CL} {n : CL}
    (h : findText t ns = some n) (p : List String) :
    pathMem ns (t :: p) = (p.isEmpty || pathMem n.childrenOf p) := by
  simp [pathMem, h]

theorem pathMem_cons_none {t : String} {ns : List CL}
    (h : findText t ns = none) (p : List String) :
    pathMem ns (t :: p) = false := by
  simp [pathMem, h]

theorem classOf_nil_path (ns : List DNode) : classOf ns [] = none := rfl

theorem classOf_cons_some {t : String} {ns : List DNode} {n : DNode}
    (h : findDText t ns = some n) (p : List String) :
    classOf ns (t :: p) = if p.isEmpty = true then some n.clsOf else classOf n.childrenOf p := by
  simp [classOf, h]

theorem classOf_cons_none {t : String} {ns : List DNode}
    (h : findDText t ns = none) (p : List String) :
    classOf ns (t :: p) = none := by
  simp [classOf, h]

/-! Facts about whole-subtree marking. -/

theorem markT_textOf (c : DClass) (n : CL) : (markT c n).textOf = n.textOf := by
  cases n
  simp [markT, CL.textOf, DNode.textOf]

theorem markT_tagsOf (c : DClass) (n : CL) : (markT c n).tagsOf = n.tagsOf := by
  cases n
  simp [markT, CL.tagsOf, DNode.tagsOf]

theorem markT_clsOf (c : DClass) (n : CL) : (markT c n).clsOf = c := by
  cases n
  simp [markT, DNode.clsOf]

theorem markT_childrenOf (c : DClass) (n : CL) :
    (markT c n).childrenOf = markF c n.childrenOf := by
  cases n
  simp [markT, CL.childrenOf, DNode.childrenOf]

theorem findDText_markF (c : DClass) (t : String) : ∀ ns : List CL,
    findDText t (markF c ns) = (findText t ns).map (markT c)
  | [] => rfl
  | n :: ns => by
    by_cases h : n.textOf = t
    · rw [markF, findDText_cons_self _ (by rw [markT_textOf]; exact h),
        findText_cons_self _ h]
      rfl
    · rw [markF, findDText_cons_ne _ (by rw [markT_textOf]; exact h),
        findText_cons_ne _ h]
      exact findDText_markF c t ns

theorem classOf_markF (c : DClass) : ∀ (p : List String) (cs : List CL), p ≠ [] →
    classOf (markF c cs) p = if pathMem cs p = true then some c else none := by
  intro p
  induction p with
  | nil => intro cs h; exact absurd rfl h
  | cons t p' ih =>
    intro cs _
    cases hf : findText t cs with
    | none =>
      have hD : findDText t (markF c cs) = none := by
        rw [findDText_markF, hf]; rfl
      rw [classOf_cons_none hD, pathMem_cons_none hf]
      simp
    | some n =>
      have hD : findDText t (markF c cs) = some (markT c n) := by
        rw [findDText_markF, hf]; rfl
      rw [classOf_cons_some hD, pathMem_cons_some hf]
      cases p' with
      | nil => simp [markT_clsOf]
      | cons u p'' =>
        have hrec := ih n.childrenOf (by simp)
        simp only [List.isEmpty_cons, if_false, markT_childrenOf, Bool.false_or]
        rw [hrec]
        simp

/-! The Diff Engine's per-level structure. -/

theorem diffT_of_none {b : CL} {ts : List CL} (h : findText b.textOf ts = none) :
    diffT b ts = [] := by
  cases b with
  | node t tg cs =>
    simp only [CL.textOf] at h
    simp [diffT, h]

theorem diffT_of_some {b : CL} {ts : List CL} {tn : CL}
    (h : findText b.textOf ts = some tn) :
    diffT b ts =
      [DNode.node b.textOf b.tagsOf .unchanged (diffForest b.childrenOf tn.childrenOf)] := by
  cases b with
  | node t tg cs =>
    simp only [CL.textOf] at h
    simp [diffT, h, diffForest, CL.textOf, CL.tagsOf, CL.childrenOf]

theorem findText_filter_keep (t : String) (q : CL → Bool)
    (hq : ∀ b : CL, b.textOf = t → q b = true) : ∀ bs : List CL,
    findText t (bs.filter q) = findText t bs
  | [] => rfl
  | b :: bs => by
    by_cases h : b.textOf = t
    · have hqb : q b = true := hq b h
      rw [List.filter_cons, if_pos hqb, findText_cons_self _ h, findText_cons_self _ h]
    · rw [findText_cons_ne _ h]
      cases hqb : q b
      · rw [List.filter_cons, hqb, if_neg (by simp)]
        exact findText_filter_keep t q hq bs
      · rw [List.filter_cons, hqb, if_pos rfl, findText_cons_ne _ h]
        exact findText_filter_keep t q hq bs

theorem findText_filter_drop (t : String) (q : CL → Bool)
    (hq : ∀ b : CL, b.textOf = t → q b = false) : ∀ bs : List CL,
    findText t (bs.filter q) = none
  | [] => rfl
  | b :: bs => by
    by_cases h : b.textOf = t
    · have hqb : q b = false := hq b h
      rw [List.filter_cons, hqb, if_neg (by simp)]
      exact findText_filter_drop t q hq bs
    · cases hqb : q b
      · rw [List.filter_cons, hqb, if_neg (by simp)]
        exact findText_filter_drop t q hq bs
      · rw [List.filter_cons, hqb, if_pos rfl, findText_cons_ne _ h]
        exact findText_filter_drop t q hq bs

theorem findText_filter_of_none (t : String) (q : CL → Bool) {bs : List CL}
    (h : findText t bs = none) : findText t (bs.filter q) = none := by
  rw [findText_eq_none_iff] at h ⊢
  intro n hn
  exact h n (List.mem_of_mem_filter hn)

theorem findDText_diffMatched_some (t : String) : ∀ {bs ts : List CL} {bn tn : CL},
    findText t bs = some bn → findText t ts = some tn →
    findDText t (diffMatched bs ts) =
      some (DNode.node t bn.tagsOf .unchanged (diffForest bn.childrenOf tn.childrenOf))
  | [], _, _, _, hb, _ => by rw [findText_nil] at hb; cases hb
  | b :: bs, ts, bn, tn, hb, ht => by
    by_cases h : b.textOf = t
    · rw [findText_cons_self _ h] at hb
      have hbn : b = bn := by simpa using hb
      subst hbn
      have hfind : findText b.textOf ts = some tn := by rw [h]; exact ht
      rw [diffMatched, diffT_of_some hfind, List.cons_append,
        findDText_cons_self _ (by simp [DNode.textOf, h]), h]
    · rw [findText_cons_ne _ h] at hb
      cases hts : findText b.textOf ts with
      | none =>
        rw [diffMatched, diffT_of_none hts, List.nil_append]
        exact findDText_diffMatched_some t hb ht
      | some tb =>
        rw [diffMatched, diffT_of_some hts, List.cons_append,
          findDText_cons_ne _ (by simp [DNode.textOf, h])]
        exact findDText_diffMatched_some t hb ht

theorem findDText_diffMatched_none_left (t : String) : ∀ {bs : List CL} (ts : List CL),
    findText t bs = none → findDText t (diffMatched bs ts) = none
  | [], _, _ => rfl
  | b :: bs, ts, h => by
    have hb : b.textOf ≠ t := by
      rw [findText_eq_none_iff] at h
      exact h b (by simp)
    have h' : findText t bs = none := by
      rw [findText_cons_ne _ hb] at h
      exact h
    cases hts : findText b.textOf ts with
    | none =>
      rw [diffMatched, diffT_of_none hts, List.nil_append]
      exact findDText_diffMatched_none_left t ts h'
    | some tb =>
      rw [diffMatched, diffT_of_some hts, List.cons_append,
        findDText_cons_ne _ (by simp [DNode.textOf, hb])]
      exact findDText_diffMatched_none_left t ts h'

theorem findDText_diffMatched_none_right (t : String) : ∀ {bs ts : List CL},
    findText t ts = none → findDText t (diffMatched bs ts) = none
  | [], _, _ => rfl
  | b :: bs, ts, h => by
    by_cases hb : b.textOf = t
    · have hts : findText b.textOf ts = none := by rw [hb]; exact h
      rw [diffMatched, diffT_of_none hts, List.nil_append]
      exact findDText_diffMatched_none_right t h
    · cases hts : findText b.textOf ts with
      | none =>
        rw [diffMatched, diffT_of_none hts, List.nil_append]
        exact findDText_diffMatched_none_right t h
      | some tb =>
        rw [diffMatched, diffT_of_some hts, List.cons_append,
          findDText_cons_ne _ (by simp [DNode.textOf, hb])]
        exact findDText_diffMatched_none_right t h

/-- The heart of the Diff Engine: the classification assigned to a full path
is determined by membership of that path in the two trees.  A path present in
both trees is unchanged, present only in the base tree removed, present only
in the target tree added. -/
theorem classOf_diffForest : ∀ (p : List String) (bs ts : List CL),
    classOf (diffForest bs ts) p =
      if pathMem bs p = true then
        (if pathMem ts p = true then some DClass.unchanged else some DClass.removed)
      else (if pathMem ts p = true then some DClass.added else none) := by
  intro p
  induction p with
  | nil =>
    intro bs ts
    simp [classOf_nil_path, pathMem_nil]
  | cons t p' ih =>
    intro bs ts
    cases hb : findText t bs with
    | none =>
      have hA : findDText t (markF .removed (bs.filter fun b => !hasText ts b.textOf))
          = none := by
        rw [findDText_markF, findText_filter_of_none _ _ hb]
        rfl
      cases ht : findText t ts with
      | none =>
        have hB : findDText t (markF .added (ts.filter fun c => !hasText bs c.textOf))
            = none := by
          rw [findDText_markF, findText_filter_of_none _ _ ht]
          rfl
        have hC := findDText_diffMatched_none_left t ts hb
        have hall : findDText t (diffForest bs ts) = none := by
          rw [diffForest, findDText_append, findDText_append, hA, hB, hC]
          rfl
        rw [classOf_cons_none hall, pathMem_cons_none hb, pathMem_cons_none ht]
        simp
      | some tn =>
        have hkeep : ∀ c : CL, c.textOf = t → (!hasText bs c.textOf) = true := by
          intro c hc
          rw [hc, hasText_false_of_findText_none hb]
          rfl
        have hB : findDText t (markF .added (ts.filter fun c => !hasText bs c.textOf))
            = some (markT .added tn) := by
          rw [findDText_markF, findText_filter_keep t _ hkeep ts, ht]
          rfl
        have hC := findDText_diffMatched_none_left t ts hb
        have hall : findDText t (diffForest bs ts) = some (markT .added tn) := by
          rw [diffForest, findDText_append, findDText_append, hA, hB]
          rfl
        rw [classOf_cons_some hall, pathMem_cons_none hb, pathMem_cons_some ht]
        cases p' with
        | nil => simp [markT_clsOf]
        | cons u p'' =>
          rw [markT_childrenOf, classOf_markF .added (u :: p'') tn.childrenOf (by simp)]
          simp
    | some bn =>
      cases ht : findText t ts with
      | none =>
        have hkeep : ∀ b : CL, b.textOf = t → (!hasText ts b.textOf) = true := by
          intro b hbt
          rw [hbt, hasText_false_of_findText_none ht]
          rfl
        have hA : findDText t (markF .removed (bs.filter fun b => !hasText ts b.textOf))
            = some (markT .removed bn) := by
          rw [findDText_markF, findText_filter_keep t _ hkeep bs, hb]
          rfl
        have hall : findDText t (diffForest bs ts) = some (markT .removed bn) := by
          rw [diffForest, findDText_append, findDText_append, hA]
          rfl
        rw [classOf_cons_some hall, pathMem_cons_some hb, pathMem_cons_none ht]
        cases p' with
        | nil => simp [markT_clsOf]
        | cons u p'' =>
          rw [markT_childrenOf, classOf_markF .removed (u :: p'') bn.childrenOf (by simp)]
          simp
      | some tn =>
        have hdropA : ∀ b : CL, b.textOf = t → (!hasText ts b.textOf) = false := by
          intro b hbt
          rw [hbt, hasText_true_of_findText_some ht]
          rfl
        have hdropB : ∀ c : CL, c.textOf = t → (!hasText bs c.textOf) = false := by
          intro c hc
          rw [hc, hasText_true_of_findText_some hb]
          rfl
        have hA : findDText t (markF .removed (bs.filter fun b => !hasText ts b.textOf))
            = none := by
          rw [findDText_markF, findText_filter_drop t _ hdropA bs]
          rfl
        have hB : findDText t (markF .added (ts.filter fun c => !hasText bs c.textOf))
            = none := by
          rw [findDText_markF, findText_filter_drop t _ hdropB ts]
          rfl
        have hC := findDText_diffMatched_some t hb ht
        have hall : findDText t (diffForest bs ts)
            = some (DNode.node t bn.tagsOf .unchanged
                (diffForest bn.childrenOf tn.childrenOf)) := by
          rw [diffForest, findDText_append, findDText_append, hA, hB, hC]
          rfl
        rw [classOf_cons_some hall, pathMem_cons_some hb, pathMem_cons_some ht]
        cases p' with
        | nil => simp [DNode.clsOf]
        | cons u p'' =>
          have hrec := ih bn.childrenOf tn.childrenOf
          simp only [List.isEmpty_cons, if_false, DNode.childrenOf, Bool.false_or]
          rw [hrec]
          simp

/-! Inversion of a classified forest (the Rollback Builder's input). -/

theorem invertT_textOf (n : DNode) : (invertT n).textOf = n.textOf := by
  cases n
  simp [invertT, DNode.textOf]

theorem invertT_clsOf (n : DNode) : (invertT n).clsOf = invertCls n.clsOf := by
  cases n
  simp [invertT, DNode.clsOf]

theorem invertT_childrenOf (n : DNode) : (invertT n).childrenOf = invertF n.childrenOf := by
  cases n
  simp [invertT, DNode.childrenOf]

theorem findDText_invertF (t : String) : ∀ ns : List DNode,
    findDText t (invertF ns) = (findDText t ns).map invertT
  | [] => rfl
  | n :: ns => by
    by_cases h : n.textOf = t
    · rw [invertF, findDText_cons_self _ (by rw [invertT_textOf]; exact h),
        findDText_cons_self _ h]
      rfl
    · rw [invertF, findDText_cons_ne _ (by rw [invertT_textOf]; exact h),
        findDText_cons_ne _ h]
      exact findDText_invertF t ns

theorem classOf_invertF : ∀ (p : List String) (ns : List DNode),
    classOf (invertF ns) p = (classOf ns p).map invertCls := by
  intro p
  induction p with
  | nil => intro ns; rfl
  | cons t p' ih =>
    intro ns
    cases hf : findDText t ns with
    | none =>
      have hI : findDText t (invertF ns) = none := by
        rw [findDText_invertF, hf]
        rfl
      rw [classOf_cons_none hI, classOf_cons_none hf]
      rfl
    | some n =>
      have hI : findDText t (invertF ns) = some (invertT n) := by
        rw [findDText_invertF, hf]
        rfl
      rw [classOf_cons_some hI, classOf_cons_some hf]
      cases p' with
      | nil => simp [invertT_clsOf]
      | cons u p'' =>
        simp only [List.isEmpty_cons, if_false, invertT_childrenOf]
        rw [ih n.childrenOf]
        simp

/-! Sibling uniqueness. -/

theorem uniqT_eq (n : CL) : uniqT n = uniqF n.childrenOf := by
  cases n
  rfl

theorem uniqF_cons {n : CL} {ns : List CL} (h : uniqF (n :: ns) = true) :
    (textsOf ns).contains n.textOf = false ∧ uniqT n = true ∧ uniqF ns = true := by
  simp only [uniqF, Bool.and_eq_true] at h
  obtain ⟨⟨h1, h2⟩, h3⟩ := h
  refine ⟨?_, h2, h3⟩
  cases hx : (textsOf ns).contains n.textOf
  · rfl
  · rw [hx] at h1
    cases h1

theorem notMem_of_contains_false {l : List String} {a : String}
    (h : l.contains a = false) : a ∉ l := by
  intro hm
  have h2 : l.contains a = true := by simpa using hm
  rw [h] at h2
  cases h2

theorem contains_false_of_notMem {l : List String} {a : String}
    (h : a ∉ l) : l.contains a = false := by
  cases hx : l.contains a
  · rfl
  · have : a ∈ l := by simpa using hx
    exact absurd this h

theorem uniqF_cons_intro {n : CL} {ns : List CL}
    (h1 : (textsOf ns).contains n.textOf = false) (h2 : uniqT n = true)
    (h3 : uniqF ns = true) : uniqF (n :: ns) = true := by
  simp [uniqF, h2, h3]
  exact notMem_of_contains_false h1

theorem uniqF_mem_children {ns : List CL} (h : uniqF ns = true) {n : CL} (hm : n ∈ ns) :
    uniqF n.childrenOf = true := by
  induction ns with
  | nil => cases hm
  | cons a as ih =>
    obtain ⟨_, h2, h3⟩ := uniqF_cons h
    rcases List.mem_cons.1 hm with he | hm'
    · subst he
      rw [← uniqT_eq]
      exact h2
    · exact ih h3 hm'

theorem findText_self_of_uniq {ns : List CL} (h : uniqF ns = true) {n : CL} (hm : n ∈ ns) :
    findText n.textOf ns = some n := by
  induction ns with
  | nil => cases hm
  | cons a as ih =>
    obtain ⟨h1, _, h3⟩ := uniqF_cons h
    rcases List.mem_cons.1 hm with he | hm'
    · subst he
      exact findText_cons_self as rfl
    · have hne : a.textOf ≠ n.textOf := by
        intro he
        have hmem : n.textOf ∈ textsOf as := by
          rw [textsOf]
          exact List.mem_map_of_mem CL.textOf hm'
        rw [he] at h1
        exact notMem_of_contains_false h1 hmem
      rw [findText_cons_ne _ hne]
      exact ih h3 hm'

/-! Sibling permutations preserve path sets. -/

theorem pathMem_cons_skip {n : CL} {ns : List CL} {s : String} (p' : List String)
    (h : n.textOf ≠ s) : pathMem (n :: ns) (s :: p') = pathMem ns (s :: p') := by
  cases hf : findText s ns with
  | none =>
    rw [pathMem_cons_none (by rw [findText_cons_ne _ h]; exact hf),
      pathMem_cons_none hf]
  | some m =>
    rw [pathMem_cons_some (by rw [findText_cons_ne _ h]; exact hf),
      pathMem_cons_some hf]

theorem sperm_texts {l l' : List CL} (h : SPerm l l') : (textsOf l).Perm (textsOf l') := by
  induction h with
  | nil => exact List.Perm.refl _
  | cons t tg cs cs' a b hcs hab ihcs ihab =>
    simpa [textsOf, CL.textOf] using ihab.cons t
  | swap a b l =>
    simp only [textsOf, List.map_cons]
    exact List.Perm.swap _ _ _
  | trans h1 h2 ih1 ih2 => exact ih1.trans ih2

theorem sperm_uniq {l l' : List CL} (h : SPerm l l') : uniqF l = true → uniqF l' = true := by
  induction h with
  | nil => exact id
  | cons t tg cs cs' a b hcs hab ihcs ihab =>
    intro hu
    obtain ⟨h1, h2, h3⟩ := uniqF_cons hu
    have h1' : (CL.node t tg cs).textOf ∉ textsOf a := notMem_of_contains_false h1
    refine uniqF_cons_intro ?_ ?_ (ihab h3)
    · apply contains_false_of_notMem
      intro hm
      apply h1'
      simp only [CL.textOf] at hm ⊢
      exact ((sperm_texts hab).mem_iff).2 hm
    · rw [uniqT_eq] at h2 ⊢
      simp only [CL.childrenOf] at h2 ⊢
      exact ihcs h2
  | swap a b l =>
    intro hu
    obtain ⟨h1, h2, h3⟩ := uniqF_cons hu
    obtain ⟨h4, h5, h6⟩ := uniqF_cons h3
    have hab : a.textOf ≠ b.textOf := by
      intro he
      apply notMem_of_contains_false h1
      simp [textsOf, he]
    have h1a : (textsOf l).contains a.textOf = false := by
      apply contains_false_of_notMem
      intro hm
      apply notMem_of_contains_false h1
      simp [textsOf]
      right
      simpa [textsOf] using hm
    refine uniqF_cons_intro ?_ h5 (uniqF_cons_intro h1a h2 h6)
    · apply contains_false_of_notMem
      intro hm
      simp only [textsOf, List.map_cons, List.mem_cons] at hm
      rcases hm with he | hm'
      · exact hab he.symm
      · exact notMem_of_contains_false h4 (by simpa [textsOf] using hm')
  | trans h1 h2 ih1 ih2 => exact fun hu => ih2 (ih1 hu)

theorem sperm_pathMem {l l' : List CL} (h : SPerm l l') : uniqF l = true →
    ∀ p, pathMem l p = pathMem l' p := by
  induction h with
  | nil => intro _ p; rfl
  | cons t tg cs cs' a b hcs hab ihcs ihab =>
    intro hu p
    obtain ⟨h1, h2, h3⟩ := uniqF_cons hu
    cases p with
    | nil => rfl
    | cons s p' =>
      by_cases hs : t = s
      · rw [pathMem_cons_some (findText_cons_self a (by simp [CL.textOf, hs])),
          pathMem_cons_some (findText_cons_self b (by simp [CL.textOf, hs]))]
        simp only [CL.childrenOf]
        rw [uniqT_eq] at h2
        simp only [CL.childrenOf] at h2
        rw [ihcs h2 p']
      · have hne : (CL.node t tg cs).textOf ≠ s := by simp [CL.textOf]; exact hs
        have hne' : (CL.node t tg cs').textOf ≠ s := by simp [CL.textOf]; exact hs
        rw [pathMem_cons_skip p' hne, pathMem_cons_skip p' hne']
        exact ihab h3 (s :: p')
  | swap a b l =>
    intro hu p
    obtain ⟨h1, _, h3⟩ := uniqF_cons hu
    have hab : a.textOf ≠ b.textOf := by
      intro he
      apply notMem_of_contains_false h1
      simp [textsOf, he]
    cases p with
    | nil => rfl
    | cons s p' =>
      by_cases hsa : a.textOf = s
      · have hbs : b.textOf ≠ s := fun he => hab (hsa.trans he.symm)
        rw [pathMem_cons_some (findText_cons_self _ hsa), pathMem_cons_skip p' hbs,
          pathMem_cons_some (findText_cons_self _ hsa)]
      · by_cases hsb : b.textOf = s
        · rw [pathMem_cons_skip p' hsa,
            pathMem_cons_some (findText_cons_self _ hsb),
            pathMem_cons_some (findText_cons_self _ hsb)]
        · rw [pathMem_cons_skip p' hsa, pathMem_cons_skip p' hsb,
            pathMem_cons_skip p' hsb, pathMem_cons_skip p' hsa]
  | trans hx hy ihx ihy =>
    intro hu p
    rw [ihx hu p, ihy (sperm_uniq hx hu) p]

/-! Emission: structural facts. -/

theorem dclass_beq_iff (a b : DClass) : (a == b) = true ↔ a = b := by
  cases a <;> cases b <;> decide

theorem emitSel_nil (inc exc : List String) (depth : Nat) (c : DClass) :
    emitSel inc exc depth c [] = [] := by
  rw [emitSel]

theorem emitSel_cons (inc exc : List String) (depth : Nat) (c : DClass) (n : DNode)
    (ns : List DNode) :
    emitSel inc exc depth c (n :: ns) =
      (if n.clsOf == c then emitOne inc exc depth n else []) ++ emitSel inc exc depth c ns := by
  rw [emitSel]

theorem emitOne_removed (inc exc : List String) (depth : Nat) (t : String)
    (tg : List String) (cs : List DNode) :
    emitOne inc exc depth (DNode.node t tg .removed cs) =
      if passesTags inc exc tg then [⟨depth, .removed, t, tg⟩] else [] := by
  rw [emitOne]

theorem emitOne_added (inc exc : List String) (depth : Nat) (t : String)
    (tg : List String) (cs : List DNode) :
    emitOne inc exc depth (DNode.node t tg .added cs) =
      if passesTags inc exc tg then
        ⟨depth, .added, t, tg⟩ :: emitForest inc exc (depth + 1) cs
      else if (emitForest inc exc (depth + 1) cs).isEmpty then []
      else ⟨depth, .unchanged, t, tg⟩ :: emitForest inc exc (depth + 1) cs := by
  rw [emitOne, emitForest]

theorem emitOne_unchanged (inc exc : List String) (depth : Nat) (t : String)
    (tg : List String) (cs : List DNode) :
    emitOne inc exc depth (DNode.node t tg .unchanged cs) =
      if (emitForest inc exc (depth + 1) cs).isEmpty then []
      else ⟨depth, .unchanged, t, tg⟩ :: emitForest inc exc (depth + 1) cs := by
  rw [emitOne, emitForest]

mutual
theorem emitOne_depth : ∀ (inc exc : List String) (depth : Nat) (n : DNode) (l : EmitLine),
    l ∈ emitOne inc exc depth n → depth ≤ l.depth
  | inc, exc, depth, .node t tg .removed cs, l, hl => by
    rw [emitOne_removed] at hl
    cases hP : passesTags inc exc tg
    · rw [hP] at hl
      simp at hl
    · rw [hP] at hl
      simp at hl
      subst hl
      exact Nat.le_refl _
  | inc, exc, depth, .node t tg .added cs, l, hl => by
    rw [emitOne_added, emitForest] at hl
    have hsub : l ∈ emitSel inc exc (depth + 1) .removed cs
          ++ emitSel inc exc (depth + 1) .added cs
          ++ emitSel inc exc (depth + 1) .unchanged cs → depth ≤ l.depth := by
      intro hm
      rcases List.mem_append.1 hm with hm' | h3
      · rcases List.mem_append.1 hm' with h1 | h2
        · exact Nat.le_of_succ_le (emitSel_depth inc exc (depth + 1) .removed cs l h1)
        · exact Nat.le_of_succ_le (emitSel_depth inc exc (depth + 1) .added cs l h2)
      · exact Nat.le_of_succ_le (emitSel_depth inc exc (depth + 1) .unchanged cs l h3)
    cases hP : passesTags inc exc tg
    · rw [hP] at hl
      simp only [if_false, Bool.false_eq_true] at hl
      split at hl
      · simp at hl
      · rcases List.mem_cons.1 hl with he | hm
        · subst he
          exact Nat.le_refl _
        · exact hsub hm
    · rw [hP] at hl
      simp only [if_true] at hl
      rcases List.mem_cons.1 hl with he | hm
      · subst he
        exact Nat.le_refl _
      · exact hsub hm
  | inc, exc, depth, .node t tg .unchanged cs, l, hl => by
    rw [emitOne_unchanged, emitForest] at hl
    split at hl
    · simp at hl
    · rcases List.mem_cons.1 hl with he | hm
      · subst he
        exact Nat.le_refl _
      · rcases List.mem_append.1 hm with hm' | h3
        · rcases List.mem_append.1 hm' with h1 | h2
          · exact Nat.le_of_succ_le (emitSel_depth inc exc (depth + 1) .removed cs l h1)
          · exact Nat.le_of_succ_le (emitSel_depth inc exc (depth + 1) .added cs l h2)
        · exact Nat.le_of_succ_le (emitSel_depth inc exc (depth + 1) .unchanged cs l h3)
theorem emitSel_depth : ∀ (inc exc : List String) (depth : Nat) (c : DClass)
    (ns : List DNode) (l : EmitLine), l ∈ emitSel inc exc depth c ns → depth ≤ l.depth
  | inc, exc, depth, c, [], l, hl => by rw [emitSel_nil] at hl; cases hl
  | inc, exc, depth, c, n :: ns, l, hl => by
    rw [emitSel_cons] at hl
    rcases List.mem_append.1 hl with h1 | h2
    · by_cases hc : (n.clsOf == c) = true
      · rw [if_pos hc] at h1
        exact emitOne_depth inc exc depth n l h1
      · rw [if_neg hc] at h1
        cases h1
    · exact emitSel_depth inc exc depth c ns l h2
end

/-! Emission: every command line (removal or addition) passes the tag filter;
context lines are the only lines that may bypass it. -/

mutual
theorem emitOne_passes : ∀ (inc exc : List String) (depth : Nat) (n : DNode) (l : EmitLine),
    l ∈ emitOne inc exc depth n → l.kind ≠ .unchanged → passesTags inc exc l.tags = true
  | inc, exc, depth, .node t tg .removed cs, l, hl, hk => by
    rw [emitOne_removed] at hl
    cases hP : passesTags inc exc tg
    · rw [hP] at hl
      simp at hl
    · rw [hP] at hl
      simp at hl
      subst hl
      exact hP
  | inc, exc, depth, .node t tg .added cs, l, hl, hk => by
    rw [emitOne_added, emitForest] at hl
    have hsub : l ∈ emitSel inc exc (depth + 1) .removed cs
          ++ emitSel inc exc (depth + 1) .added cs
          ++ emitSel inc exc (depth + 1) .unchanged cs →
        passesTags inc exc l.tags = true := by
      intro hm
      rcases List.mem_append.1 hm with hm' | h3
      · rcases List.mem_append.1 hm' with h1 | h2
        · exact emitSel_passes inc exc (depth + 1) .removed cs l h1 hk
        · exact emitSel_passes inc exc (depth + 1) .added cs l h2 hk
      · exact emitSel_passes inc exc (depth + 1) .unchanged cs l h3 hk
    cases hP : passesTags inc exc tg
    · rw [hP] at hl
      simp only [if_false, Bool.false_eq_true] at hl
      split at hl
      · simp at hl
      · rcases List.mem_cons.1 hl with he | hm
        · subst he
          exact absurd rfl hk
        · exact hsub hm
    · rw [hP] at hl
      simp only [if_true] at hl
      rcases List.mem_cons.1 hl with he | hm
      · subst he
        exact hP
      · exact hsub hm
  | inc, exc, depth, .node t tg .unchanged cs, l, hl, hk => by
    rw [emitOne_unchanged, emitForest] at hl
    split at hl
    · simp at hl
    · rcases List.mem_cons.1 hl with he | hm
      · subst he
        exact absurd rfl hk
      · rcases List.mem_append.1 hm with hm' | h3
        · rcases List.mem_append.1 hm' with h1 | h2
          · exact emitSel_passes inc exc (depth + 1) .removed cs l h1 hk
          · exact emitSel_passes inc exc (depth + 1) .added cs l h2 hk
        · exact emitSel_passes inc exc (depth + 1) .unchanged cs l h3 hk
theorem emitSel_passes : ∀ (inc exc : List String) (depth : Nat) (c : DClass)
    (ns : List DNode) (l : EmitLine), l ∈ emitSel inc exc depth c ns →
    l.kind ≠ .unchanged → passesTags inc exc l.tags = true
  | inc, exc, depth, c, [], l, hl, _ => by rw [emitSel_nil] at hl; cases hl
  | inc, exc, depth, c, n :: ns, l, hl, hk => by
    rw [emitSel_cons] at hl
    rcases List.mem_append.1 hl with h1 | h2
    · by_cases hc : (n.clsOf == c) = true
      · rw [if_pos hc] at h1
        exact emitOne_passes inc exc depth n l h1 hk
      · rw [if_neg hc] at h1
        cases h1
    · exact emitSel_passes inc exc depth c ns l h2 hk
end

theorem emitForest_passes {inc exc : List String} {depth : Nat} {ns : List DNode}
    {l : EmitLine} (hl : l ∈ emitForest inc exc depth ns) (hk : l.kind ≠ .unchanged) :
    passesTags inc exc l.tags = true := by
  rw [emitForest] at hl
  rcases List.mem_append.1 hl with hm' | h3
  · rcases List.mem_append.1 hm' with h1 | h2
    · exact emitSel_passes inc exc depth .removed ns l h1 hk
    · exact emitSel_passes inc exc depth .added ns l h2 hk
  · exact emitSel_passes inc exc depth .unchanged ns l h3 hk

/-! Emission: kinds of lines by group. -/

theorem emitSel_removed_kind : ∀ (inc exc : List String) (depth : Nat)
    (ns : List DNode) (l : EmitLine), l ∈ emitSel inc exc depth .removed ns →
    l.kind = .removed := by
  intro inc exc depth ns
  induction ns with
  | nil => intro l hl; rw [emitSel_nil] at hl; cases hl
  | cons n ns ih =>
    intro l hl
    rw [emitSel_cons] at hl
    rcases List.mem_append.1 hl with h1 | h2
    · by_cases hc : (n.clsOf == DClass.removed) = true
      · rw [if_pos hc] at h1
        have hcls : n.clsOf = .removed := (dclass_beq_iff _ _).1 hc
        cases n with
        | node t tg c cs =>
          simp only [DNode.clsOf] at hcls
          subst hcls
          rw [emitOne_removed] at h1
          cases hP : passesTags inc exc tg
          · rw [hP] at h1
            simp at h1
          · rw [hP] at h1
            simp at h1
            subst h1
            rfl
      · rw [if_neg hc] at h1
        cases h1
    · exact ih l h2

theorem emitOne_kind_at_depth (inc exc : List String) (depth : Nat) (n : DNode)
    (l : EmitLine) (hl : l ∈ emitOne inc exc depth n) (hd : l.depth = depth) :
    l.kind = n.clsOf ∨ l.kind = .unchanged := by
  cases n with
  | node t tg c cs =>
    have hdeep : ∀ c', l ∈ emitSel inc exc (depth + 1) c' cs → False := by
      intro c' hm
      have := emitSel_depth inc exc (depth + 1) c' cs l hm
      omega
    have hdeep3 : l ∈ emitSel inc exc (depth + 1) .removed cs
          ++ emitSel inc exc (depth + 1) .added cs
          ++ emitSel inc exc (depth + 1) .unchanged cs → False := by
      intro hm
      rcases List.mem_append.1 hm with hm' | h3
      · rcases List.mem_append.1 hm' with h1 | h2
        · exact hdeep _ h1
        · exact hdeep _ h2
      · exact hdeep _ h3
    cases c with
    | removed =>
      rw [emitOne_removed] at hl
      cases hP : passesTags inc exc tg
      · rw [hP] at hl
        simp at hl
      · rw [hP] at hl
        simp at hl
        subst hl
        left
        rfl
    | added =>
      rw [emitOne_added, emitForest] at hl
      cases hP : passesTags inc exc tg
      · rw [hP] at hl
        simp only [if_false, Bool.false_eq_true] at hl
        split at hl
        · simp at hl
        · rcases List.mem_cons.1 hl with he | hm
          · subst he
            right
            rfl
          · exact absurd hm (fun hm => hdeep3 hm)
      · rw [hP] at hl
        simp only [if_true] at hl
        rcases List.mem_cons.1 hl with he | hm
        · subst he
          left
          rfl
        · exact absurd hm (fun hm => hdeep3 hm)
    | unchanged =>
      rw [emitOne_unchanged, emitForest] at hl
      split at hl
      · simp at hl
      · rcases List.mem_cons.1 hl with he | hm
        · subst he
          right
          rfl
        · exact absurd hm (fun hm => hdeep3 hm)

theorem emitSel_kind_at_depth (inc exc : List String) (depth : Nat) (c : DClass) :
    ∀ (ns : List DNode) (l : EmitLine), l ∈ emitSel inc exc depth c ns →
    l.depth = depth → l.kind = c ∨ l.kind = .unchanged := by
  intro ns
  induction ns with
  | nil => intro l hl; rw [emitSel_nil] at hl; cases hl
  | cons n ns ih =>
    intro l hl hd
    rw [emitSel_cons] at hl
    rcases List.mem_append.1 hl with h1 | h2
    · by_cases hc : (n.clsOf == c) = true
      · rw [if_pos hc] at h1
        have hcls : n.clsOf = c := (dclass_beq_iff _ _).1 hc
        rcases emitOne_kind_at_depth inc exc depth n l h1 hd with hk | hk
        · left
          rw [hk, hcls]
        · right
          exact hk
      · rw [if_neg hc] at h1
        cases h1
    · exact ih l h2 hd

theorem mem_of_getElemOpt {α : Type} {l : List α} {i : Nat} {a : α}
    (h : l[i]? = some a) : a ∈ l := by
  have h2 := List.getElem?_eq_some_iff.1 h
  obtain ⟨hl, rfl⟩ := h2
  exact List.getElem_mem hl

/-- Ordering inside one parent context: a removal command at the context's own
depth is always emitted before any addition command at that depth. -/
theorem emit_rem_before_add (inc exc : List String) (d : Nat) (ns : List DNode)
    (i j : Nat) (l1 l2 : EmitLine)
    (h1 : (emitForest inc exc d ns)[i]? = some l1)
    (h2 : (emitForest inc exc d ns)[j]? = some l2)
    (hk1 : l1.kind = .removed) (hd1 : l1.depth = d)
    (hk2 : l2.kind = .added) (hd2 : l2.depth = d) : i < j := by
  rw [emitForest, List.append_assoc] at h1 h2
  have hiA : i < (emitSel inc exc d .removed ns).length := by
    by_contra hge
    push_neg at hge
    rw [List.getElem?_append_right hge] at h1
    have hm := mem_of_getElemOpt h1
    rcases List.mem_append.1 hm with hB | hC
    · rcases emitSel_kind_at_depth inc exc d .added ns l1 hB hd1 with hk | hk
      · rw [hk1] at hk
        cases hk
      · rw [hk1] at hk
        cases hk
    · rcases emitSel_kind_at_depth inc exc d .unchanged ns l1 hC hd1 with hk | hk
      · rw [hk1] at hk
        cases hk
      · rw [hk1] at hk
        cases hk
  have hjA : (emitSel inc exc d .removed ns).length ≤ j := by
    by_contra hlt
    push_neg at hlt
    rw [List.getElem?_append, if_pos hlt] at h2
    have hm := mem_of_getElemOpt h2
    have hk := emitSel_removed_kind inc exc d ns l2 hm
    rw [hk2] at hk
    cases hk
  omega

/-- A node of the classified forest contributes its emission to its group. -/
theorem emitSel_mem_intro (inc exc : List String) (depth : Nat) (c : DClass) :
    ∀ (ns : List DNode) (n : DNode) (l : EmitLine), n ∈ ns → n.clsOf = c →
    l ∈ emitOne inc exc depth n → l ∈ emitSel inc exc depth c ns := by
  intro ns
  induction ns with
  | nil => intro n l hm; cases hm
  | cons a as ih =>
    intro n l hm hc hl
    rw [emitSel_cons]
    rcases List.mem_cons.1 hm with he | hm'
    · subst he
      apply List.mem_append_left
      rw [if_pos ((dclass_beq_iff _ _).2 hc)]
      exact hl
    · exact List.mem_append_right _ (ih n l hm' hc hl)

theorem emitForest_mem_of_sel {inc exc : List String} {depth : Nat} {c : DClass}
    {ns : List DNode} {l : EmitLine} (h : l ∈ emitSel inc exc depth c ns) :
    l ∈ emitForest inc exc depth ns := by
  rw [emitForest]
  cases c with
  | removed => exact List.mem_append_left _ (List.mem_append_left _ h)
  | added => exact List.mem_append_left _ (List.mem_append_right _ h)
  | unchanged => exact List.mem_append_right _ h

theorem tagsAt_cons_some {t : String} {ns : List CL} {n : CL}
    (h : findText t ns = some n) (p : List String) :
    tagsAt ns (t :: p) = if p.isEmpty = true then some n.tagsOf else tagsAt n.childrenOf p := by
  simp [tagsAt, h]

theorem markF_mem {c : DClass} {ns : List CL} {n : CL} (h : n ∈ ns) :
    markT c n ∈ markF c ns := by
  induction ns with
  | nil => cases h
  | cons a as ih =>
    rw [markF]
    rcases List.mem_cons.1 h with he | hm
    · subst he
      exact List.mem_cons_self _ _
    · exact List.mem_cons_of_mem _ (ih hm)

theorem diffMatched_mem_intro : ∀ (bs : List CL) {ts : List CL} {bn tn : CL}, bn ∈ bs →
    findText bn.textOf ts = some tn →
    DNode.node bn.textOf bn.tagsOf .unchanged (diffForest bn.childrenOf tn.childrenOf)
      ∈ diffMatched bs ts := by
  intro bs
  induction bs with
  | nil => intro ts bn tn h; cases h
  | cons b rest ih =>
    intro ts bn tn hm ht
    rw [diffMatched]
    rcases List.mem_cons.1 hm with he | hm'
    · subst he
      rw [diffT_of_some ht]
      exact List.mem_append_left _ (List.mem_cons_self _ _)
    · exact List.mem_append_right _ (ih hm' ht)

/-- Maximal removed nodes are emitted: a node present in the base tree but not
in the target tree, all of whose ancestors are present in both trees, yields a
negation command at its depth whenever it passes the tag filter. -/
theorem removal_emitted : ∀ (anc : List String) (bs ts : List CL) (x : String)
    (tg inc exc : List String) (d : Nat),
    pathMem bs (anc ++ [x]) = true →
    pathMem ts (anc ++ [x]) = false →
    (∀ q, q ≠ [] → q <+: anc → pathMem ts q = true) →
    tagsAt bs (anc ++ [x]) = some tg →
    passesTags inc exc tg = true →
    EmitLine.mk (d + anc.length) .removed x tg ∈ emitForest inc exc d (diffForest bs ts) := by
  intro anc
  induction anc with
  | nil =>
    intro bs ts x tg inc exc d hb ht _ htag hp
    simp only [List.nil_append] at hb ht htag
    cases hf : findText x bs with
    | none =>
      rw [pathMem_cons_none hf] at hb
      cases hb
    | some bn =>
      have hfts : findText x ts = none := by
        cases hft : findText x ts with
        | none => rfl
        | some tn =>
          rw [pathMem_cons_some hft] at ht
          simp at ht
      have htg : tg = bn.tagsOf := by
        rw [tagsAt_cons_some hf] at htag
        simp at htag
        exact htag.symm
      have hq : (!hasText ts bn.textOf) = true := by
        rw [findText_text hf, hasText_false_of_findText_none hfts]
        rfl
      have hmark : markT .removed bn ∈
          markF .removed (bs.filter fun b => !hasText ts b.textOf) :=
        markF_mem (List.mem_filter_of_mem (findText_mem hf) hq)
      have hmemD : markT .removed bn ∈ diffForest bs ts := by
        rw [diffForest]
        exact List.mem_append_left _ (List.mem_append_left _ hmark)
      have hline : EmitLine.mk d .removed x tg ∈ emitOne inc exc d (markT .removed bn) := by
        cases bn with
        | node t' tg' cs' =>
          have hx : t' = x := by simpa [CL.textOf] using findText_text hf
          have htg' : tg = tg' := by simpa [CL.tagsOf] using htg
          subst hx
          subst htg'
          rw [markT, emitOne_removed, if_pos hp]
          exact List.mem_singleton.2 rfl
      have hsel := emitSel_mem_intro inc exc d .removed (diffForest bs ts)
        (markT .removed bn) _ hmemD (markT_clsOf _ _) hline
      have hfin := emitForest_mem_of_sel hsel
      simpa using hfin
  | cons a anc' ih =>
    intro bs ts x tg inc exc d hb ht hanc htag hp
    rw [show (a :: anc') ++ [x] = a :: (anc' ++ [x]) from rfl] at hb ht htag
    cases hfb : findText a bs with
    | none =>
      rw [pathMem_cons_none hfb] at hb
      cases hb
    | some bn =>
      have hfa : pathMem ts [a] = true := hanc [a] (by simp) ⟨anc', rfl⟩
      cases hft : findText a ts with
      | none =>
        rw [pathMem_cons_none hft] at hfa
        cases hfa
      | some tn =>
        have hne : (anc' ++ [x]).isEmpty = false := by
          cases anc' <;> rfl
        have hb' : pathMem bn.childrenOf (anc' ++ [x]) = true := by
          rw [pathMem_cons_some hfb, hne, Bool.false_or] at hb
          exact hb
        have ht' : pathMem tn.childrenOf (anc' ++ [x]) = false := by
          rw [pathMem_cons_some hft, hne, Bool.false_or] at ht
          exact ht
        have hanc' : ∀ q, q ≠ [] → q <+: anc' → pathMem tn.childrenOf q = true := by
          intro q hq hpre
          obtain ⟨r, hr⟩ := hpre
          have h2 := hanc (a :: q) (by simp) ⟨r, by rw [← hr]; rfl⟩
          rw [pathMem_cons_some hft] at h2
          cases q with
          | nil => exact absurd rfl hq
          | cons u q' => simpa using h2
        have htag' : tagsAt bn.childrenOf (anc' ++ [x]) = some tg := by
          rw [tagsAt_cons_some hfb, hne] at htag
          simpa using htag
        have hrec := ih bn.childrenOf tn.childrenOf x tg inc exc (d + 1) hb' ht' hanc' htag' hp
        have hfbtext : findText bn.textOf ts = some tn := by
          rw [findText_text hfb]
          exact hft
        have hmemD : DNode.node bn.textOf bn.tagsOf .unchanged
            (diffForest bn.childrenOf tn.childrenOf) ∈ diffForest bs ts := by
          rw [diffForest]
          exact List.mem_append_right _ (diffMatched_mem_intro bs (findText_mem hfb) hfbtext)
        have hsubne : (emitForest inc exc (d + 1)
            (diffForest bn.childrenOf tn.childrenOf)).isEmpty = false := by
          cases hx : (emitForest inc exc (d + 1)
              (diffForest bn.childrenOf tn.childrenOf)).isEmpty
          · rfl
          · rw [List.isEmpty_iff] at hx
            rw [hx] at hrec
            cases hrec
        have hline : EmitLine.mk (d + 1 + anc'.length) .removed x tg ∈
            emitOne inc exc d (DNode.node bn.textOf bn.tagsOf .unchanged
              (diffForest bn.childrenOf tn.childrenOf)) := by
          rw [emitOne_unchanged, hsubne]
          simp only [Bool.false_eq_true, if_false]
          exact List.mem_cons_of_mem _ hrec
        have hsel := emitSel_mem_intro inc exc d .unchanged (diffForest bs ts) _ _
          hmemD rfl hline
        have hfin := emitForest_mem_of_sel hsel
        have harith : d + 1 + anc'.length = d + (a :: anc').length := by
          simp [List.length_cons]
          omega
        rw [harith] at hfin
        exact hfin

theorem hasText_of_mem {ns : List CL} {n : CL} (h : n ∈ ns) :
    hasText ns n.textOf = true := by
  cases hx : hasText ns n.textOf
  · exfalso
    rw [hasText_eq_isSome] at hx
    cases hf : findText n.textOf ns with
    | none =>
      rw [findText_eq_none_iff] at hf
      exact hf n h rfl
    | some m => rw [hf] at hx; cases hx
  · rfl

theorem filter_not_hasText_self (bs : List CL) :
    bs.filter (fun b => !hasText bs b.textOf) = [] := by
  rw [List.filter_eq_nil_iff]
  intro b hb
  rw [hasText_of_mem hb]
  simp

theorem diffMatched_mem_elim : ∀ (bs ts : List CL) (n : DNode), n ∈ diffMatched bs ts →
    ∃ b ∈ bs, ∃ tn, findText b.textOf ts = some tn ∧
      n = DNode.node b.textOf b.tagsOf .unchanged (diffForest b.childrenOf tn.childrenOf) := by
  intro bs
  induction bs with
  | nil => intro ts n h; rw [diffMatched] at h; cases h
  | cons b rest ih =>
    intro ts n h
    rw [diffMatched] at h
    rcases List.mem_append.1 h with h1 | h2
    · cases hts : findText b.textOf ts with
      | none =>
        rw [diffT_of_none hts] at h1
        cases h1
      | some tn =>
        rw [diffT_of_some hts] at h1
        have he := List.mem_singleton.1 h1
        exact ⟨b, List.mem_cons_self _ _, tn, hts, he⟩
    · obtain ⟨b', hb', tn, htn, he⟩ := ih ts n h2
      exact ⟨b', List.mem_cons_of_mem _ hb', tn, htn, he⟩

theorem emitSel_nil_of_nil_emissions (inc exc : List String) (d : Nat) (c : DClass) :
    ∀ ns : List DNode, (∀ n ∈ ns, emitOne inc exc d n = []) →
    emitSel inc exc d c ns = [] := by
  intro ns
  induction ns with
  | nil => intro _; rw [emitSel_nil]
  | cons n ns ih =>
    intro h
    rw [emitSel_cons, ih (fun m hm => h m (List.mem_cons_of_mem _ hm)), List.append_nil]
    split
    · exact h n (List.mem_cons_self _ _)
    · rfl

theorem emitSel_nil_of_cls_ne (inc exc : List String) (d : Nat) (c : DClass) :
    ∀ ns : List DNode, (∀ n ∈ ns, (n.clsOf == c) = false) →
    emitSel inc exc d c ns = [] := by
  intro ns
  induction ns with
  | nil => intro _; rw [emitSel_nil]
  | cons n ns ih =>
    intro h
    rw [emitSel_cons, ih (fun m hm => h m (List.mem_cons_of_mem _ hm)), List.append_nil,
      h n (List.mem_cons_self _ _)]
    rfl

theorem sizeOf_childrenOf_lt {b : CL} {fs : List CL} (h : b ∈ fs) :
    sizeOf b.childrenOf < sizeOf fs := by
  have h1 := List.sizeOf_lt_of_mem h
  cases b with
  | node t tg cs =>
    have h2 : sizeOf cs < sizeOf (CL.node t tg cs) := by
      simp
    simp only [CL.childrenOf]
    omega

/-- Comparing a forest with itself produces a classification whose emission is
empty: nothing is removed, nothing is added, and no context block has any
content. -/
theorem emitForest_diff_self (fs : List CL) (hu : uniqF fs = true)
    (inc exc : List String) (d : Nat) :
    emitForest inc exc d (diffForest fs fs) = [] := by
  have h1 : fs.filter (fun b => !hasText fs b.textOf) = [] := filter_not_hasText_self fs
  rw [diffForest, h1]
  simp only [markF, List.nil_append]
  have hcls : ∀ n ∈ diffMatched fs fs, (n.clsOf == DClass.removed) = false ∧
      (n.clsOf == DClass.added) = false := by
    intro n hn
    obtain ⟨b, _, tn, _, he⟩ := diffMatched_mem_elim fs fs n hn
    subst he
    exact ⟨rfl, rfl⟩
  have hone : ∀ n ∈ diffMatched fs fs, emitOne inc exc (d) n = [] := by
    intro n hn
    obtain ⟨b, hb, tn, htn, he⟩ := diffMatched_mem_elim fs fs n hn
    have hself : findText b.textOf fs = some b := findText_self_of_uniq hu hb
    have htnb : tn = b := by
      have h3 : some tn = some b := htn.symm.trans hself
      simpa using h3
    subst he
    rw [emitOne_unchanged]
    have hrec : emitForest inc exc (d + 1) (diffForest b.childrenOf tn.childrenOf) = [] := by
      rw [htnb]
      exact emitForest_diff_self b.childrenOf (uniqF_mem_children hu hb) inc exc (d + 1)
    rw [hrec]
    rfl
  rw [emitForest,
    emitSel_nil_of_cls_ne inc exc d .removed _ (fun n hn => (hcls n hn).1),
    emitSel_nil_of_cls_ne inc exc d .added _ (fun n hn => (hcls n hn).2),
    emitSel_nil_of_nil_emissions inc exc d .unchanged _ hone]
  rfl
termination_by sizeOf fs
decreasing_by
  exact sizeOf_childrenOf_lt hb

theorem viewList_nil (d : Nat) : viewList d [] = [] := by
  rw [viewList]

theorem viewList_cons (d : Nat) (n : DNode) (ns : List DNode) :
    viewList d (n :: ns) = viewOne d n ++ viewList d ns := by
  rw [viewList]

theorem viewOne_unchanged (d : Nat) (t : String) (tg : List String) (cs : List DNode) :
    viewOne d (DNode.node t tg .unchanged cs) =
      if (viewList (d + 1) cs).isEmpty then []
      else ("  " ++ indentStr d ++ t) :: viewList (d + 1) cs := by
  rw [viewOne]

theorem viewList_nil_of_nil (d : Nat) : ∀ ns : List DNode,
    (∀ n ∈ ns, viewOne d n = []) → viewList d ns = [] := by
  intro ns
  induction ns with
  | nil => intro _; rw [viewList_nil]
  | cons n ns ih =>
    intro h
    rw [viewList_cons, h n (List.mem_cons_self _ _),
      ih (fun m hm => h m (List.mem_cons_of_mem _ hm))]
    rfl

/-- Comparing a forest with itself produces an empty unified-diff view. -/
theorem viewList_diff_self (fs : List CL) (hu : uniqF fs = true) (d : Nat) :
    viewList d (diffForest fs fs) = [] := by
  have h1 : fs.filter (fun b => !hasText fs b.textOf) = [] := filter_not_hasText_self fs
  rw [diffForest, h1]
  simp only [markF, List.nil_append]
  apply viewList_nil_of_nil
  intro n hn
  obtain ⟨b, hb, tn, htn, he⟩ := diffMatched_mem_elim fs fs n hn
  have hself : findText b.textOf fs = some b := findText_self_of_uniq hu hb
  have htnb : tn = b := by
    have h3 : some tn = some b := htn.symm.trans hself
    simpa using h3
  subst he
  rw [viewOne_unchanged]
  have hrec : viewList (d + 1) (diffForest b.childrenOf tn.childrenOf) = [] := by
    rw [htnb]
    exact viewList_diff_self b.childrenOf (uniqF_mem_children hu hb) (d + 1)
  rw [hrec]
  rfl
termination_by sizeOf fs
decreasing_by
  exact sizeOf_childrenOf_lt hb

/-! Tag Rule Engine: rule application appends tags in declaration order. -/

theorem ruleTagsP_append (r1 r2 : List TagRule) (p : List String) :
    ruleTagsP (r1 ++ r2) p = ruleTagsP r1 p ++ ruleTagsP r2 p := by
  induction r1 with
  | nil => simp [ruleTagsP]
  | cons r rs ih => simp [ruleTagsP, ih]

mutual
theorem collectT_tagT : ∀ (rules : List TagRule) (anc : List String) (n : CL),
    collectT anc (tagT rules anc n)
      = (collectT anc n).map (fun pr => (pr.1, pr.2 ++ ruleTagsP rules pr.1))
  | rules, anc, .node t tg cs => by
    rw [tagT, collectT, collectT]
    simp only [List.map_cons]
    congr 1
    exact collectF_tagF rules (anc ++ [t]) cs
theorem collectF_tagF : ∀ (rules : List TagRule) (anc : List String) (ns : List CL),
    collectF anc (tagF rules anc ns)
      = (collectF anc ns).map (fun pr => (pr.1, pr.2 ++ ruleTagsP rules pr.1))
  | rules, anc, [] => by
    simp [tagF, collectF]
  | rules, anc, n :: ns => by
    rw [tagF, collectF, collectF, List.map_append]
    congr 1
    · exact collectT_tagT rules anc n
    · exact collectF_tagF rules anc ns
end

/-! Parser and the pure indentation machine: simulation. -/

theorem stackDepths_dropWhile (d : Nat) (stk : List PEntry) :
    stackDepths (stk.dropWhile (fun e => decide (d ≤ e.1)))
      = (stackDepths stk).dropWhile (fun x => decide (d ≤ x)) := by
  induction stk with
  | nil => rfl
  | cons e rest ih =>
    cases hc : decide (d ≤ e.1)
    · simp [stackDepths, List.dropWhile_cons, hc]
    · simp only [stackDepths, List.map_cons, List.dropWhile_cons, hc, if_true]
      exact ih

theorem stackDepths_popGE (d : Nat) (stk : List PEntry) (roots : List CL) :
    stackDepths (popGE d stk roots).1
      = (stackDepths stk).dropWhile (fun x => decide (d ≤ x)) := by
  cases stk with
  | nil => rfl
  | cons e rest =>
    obtain ⟨d1, t1, cs1⟩ := e
    cases hc : decide (d ≤ d1)
    · simp [popGE, List.takeWhile_cons, List.dropWhile_cons, hc, stackDepths]
    · simp only [popGE, List.takeWhile_cons, List.dropWhile_cons, hc, if_true]
      have hrw := stackDepths_dropWhile d rest
      cases hdrop : rest.dropWhile (fun e => decide (d ≤ e.1)) with
      | nil =>
        rw [hdrop] at hrw
        simp only [stackDepths, List.map_cons, List.dropWhile_cons, hc, if_true]
        simp only [stackDepths] at hrw
        exact hrw
      | cons e2 r2 =>
        obtain ⟨d2, t2, cs2⟩ := e2
        rw [hdrop] at hrw
        simp only [stackDepths, List.map_cons, List.dropWhile_cons, hc, if_true]
        simp only [stackDepths] at hrw
        exact hrw

theorem openEntry_depths (d : Nat) (txt : String) (stk : List PEntry) (roots : List CL) :
    stackDepths (openEntry d txt stk roots).1 = d :: stackDepths stk := by
  cases stk with
  | nil =>
    rcases hE : extractChild txt roots with ⟨found, rest⟩
    simp [openEntry, hE, stackDepths]
  | cons e r2 =>
    obtain ⟨d2, t2, cs2⟩ := e
    rcases hE : extractChild txt cs2 with ⟨found, rest⟩
    simp [openEntry, hE, stackDepths]

theorem parseStep_skip {st : List PEntry × List CL} {l : List Char}
    (h : isSig l = false) : parseStep st l = .ok st := by
  unfold isSig at h
  unfold parseStep
  cases he : (stripChars l).isEmpty
  · rw [he] at h
    simp only [Bool.not_false, Bool.true_and, Bool.not_eq_false'] at h
    simp [he, h]
  · simp [he]

theorem parseStep_sig {st : List PEntry × List CL} {l : List Char}
    (h : isSig l = true) :
    parseStep st l =
      if legalDepth (indentOf l) st.1 then
        .ok (openEntry (indentOf l) (String.mk (stripChars l))
          (popGE (indentOf l) st.1 st.2).1 (popGE (indentOf l) st.1 st.2).2)
      else .error ("inconsistent indentation: " ++ String.mk (stripChars l)) := by
  unfold isSig at h
  rw [Bool.and_eq_true, Bool.not_eq_true', Bool.not_eq_true'] at h
  obtain ⟨h1, h2⟩ := h
  unfold parseStep
  simp only [h1, h2, Bool.false_eq_true, if_false]

theorem sigDepths_cons_skip {l : List Char} (ls : List (List Char))
    (h : isSig l = false) : sigDepths (l :: ls) = sigDepths ls := by
  unfold sigDepths
  rw [List.filter_cons, h]
  simp

theorem sigDepths_cons_sig {l : List Char} (ls : List (List Char))
    (h : isSig l = true) : sigDepths (l :: ls) = indentOf l :: sigDepths ls := by
  unfold sigDepths
  rw [List.filter_cons, h]
  simp

theorem parseFold_depthRun : ∀ (ls : List (List Char)) (st : List PEntry × List CL),
    (∃ st', parseFold ls st = .ok st')
      ↔ (depthRun (sigDepths ls) (stackDepths st.1)).isSome = true := by
  intro ls
  induction ls with
  | nil =>
    intro st
    simp [parseFold, sigDepths, depthRun]
  | cons l ls ih =>
    intro st
    cases hsig : isSig l
    · rw [sigDepths_cons_skip ls hsig]
      rw [show parseFold (l :: ls) st = parseFold ls st by
        rw [parseFold, parseStep_skip hsig]]
      exact ih st
    · rw [sigDepths_cons_sig ls hsig]
      have hleg : legalDepth (indentOf l) st.1
          = legalDepths (indentOf l) (stackDepths st.1) := rfl
      cases hL : legalDepths (indentOf l) (stackDepths st.1)
      · rw [show parseFold (l :: ls) st
            = .error ("inconsistent indentation: " ++ String.mk (stripChars l)) by
          rw [parseFold, parseStep_sig hsig, hleg, hL]
          rfl]
        rw [show depthRun (indentOf l :: sigDepths ls) (stackDepths st.1) = none by
          rw [depthRun, hL]
          rfl]
        simp
      · set st' := openEntry (indentOf l) (String.mk (stripChars l))
          (popGE (indentOf l) st.1 st.2).1 (popGE (indentOf l) st.1 st.2).2 with hst'
        rw [show parseFold (l :: ls) st = parseFold ls st' by
          rw [parseFold, parseStep_sig hsig, hleg, hL]
          rfl]
        rw [show depthRun (indentOf l :: sigDepths ls) (stackDepths st.1)
            = depthRun (sigDepths ls)
              (indentOf l :: (stackDepths st.1).dropWhile
                (fun x => decide (indentOf l ≤ x))) by
          rw [depthRun, hL]
          rfl]
        have hdep : stackDepths st'.1
            = indentOf l :: (stackDepths st.1).dropWhile
              (fun x => decide (indentOf l ≤ x)) := by
          rw [hst', openEntry_depths, stackDepths_popGE]
        rw [← hdep]
        exact ih st'

/-- The parser succeeds exactly when the pure indentation machine accepts the
depth sequence of the significant lines. -/
theorem parseLines_ok_iff (lines : List (List Char)) :
    (∃ fs, parseLines lines = .ok fs) ↔ depthsOK (sigDepths lines) = true := by
  unfold depthsOK
  have h := parseFold_depthRun lines ([], [])
  simp only [stackDepths, List.map_nil] at h
  cases hP : parseFold lines ([], []) with
  | ok st =>
    rw [hP] at h
    constructor
    · intro _
      exact h.1 ⟨st, rfl⟩
    · intro _
      rcases st with ⟨stk, roots⟩
      exact ⟨_, by rw [parseLines, hP]⟩
  | error e =>
    rw [hP] at h
    constructor
    · intro ⟨fs, hfs⟩
      rw [parseLines, hP] at hfs
      cases hfs
    · intro hs
      exfalso
      have h2 := h.2 hs
      obtain ⟨st', hst'⟩ := h2
      cases hst'

/-! The parser produces trees with pairwise distinct sibling texts. -/

theorem textsOf_append (l1 l2 : List CL) :
    textsOf (l1 ++ l2) = textsOf l1 ++ textsOf l2 := by
  simp [textsOf]

theorem uniqF_append_singleton : ∀ (cs : List CL) (n : CL), uniqF cs = true →
    uniqT n = true → (textsOf cs).contains n.textOf = false → uniqF (cs ++ [n]) = true
  | [], n, _, h2, _ => by
    simp only [List.nil_append]
    exact uniqF_cons_intro rfl h2 rfl
  | c :: cs, n, h1, h2, h3 => by
    obtain ⟨hc1, hc2, hc3⟩ := uniqF_cons h1
    have h3' := notMem_of_contains_false h3
    simp only [textsOf, List.map_cons, List.mem_cons] at h3'
    push_neg at h3'
    obtain ⟨hne, hnotin⟩ := h3'
    rw [List.cons_append]
    refine uniqF_cons_intro ?_ hc2
      (uniqF_append_singleton cs n hc3 h2
        (contains_false_of_notMem (by simpa [textsOf] using hnotin)))
    apply contains_false_of_notMem
    intro hm
    rw [textsOf_append] at hm
    rcases List.mem_append.1 hm with hm1 | hm2
    · exact notMem_of_contains_false hc1 hm1
    · have he : c.textOf = n.textOf := by simpa [textsOf] using hm2
      exact hne he.symm

theorem extractChild_sublist (t : String) : ∀ cs : List CL,
    (extractChild t cs).2.Sublist cs
  | [] => by simp [extractChild]
  | c :: cs => by
    rw [extractChild]
    by_cases h : (c.textOf == t) = true
    · rw [if_pos h]
      exact (List.Sublist.refl cs).cons c
    · rw [if_neg h]
      rcases hE : extractChild t cs with ⟨r, cs'⟩
      have hs := extractChild_sublist t cs
      rw [hE] at hs
      simp only [hE]
      exact hs.cons₂ c

theorem extractChild_spec (t : String) : ∀ (cs : List CL), uniqF cs = true →
    uniqF (extractChild t cs).2 = true ∧
    (textsOf (extractChild t cs).2).contains t = false ∧
    ∀ cs0, (extractChild t cs).1 = some cs0 → uniqF cs0 = true
  | [], _ => by
    refine ⟨rfl, rfl, ?_⟩
    intro cs0 h
    simp [extractChild] at h
  | c :: cs, hu => by
    obtain ⟨h1, h2, h3⟩ := uniqF_cons hu
    rw [extractChild]
    by_cases h : (c.textOf == t) = true
    · rw [if_pos h]
      have hct : c.textOf = t := by simpa using h
      refine ⟨h3, by rw [← hct]; exact h1, ?_⟩
      intro cs0 he
      have he2 : c.childrenOf = cs0 := by simpa using he
      rw [← he2, ← uniqT_eq]
      exact h2
    · rw [if_neg h]
      rcases hE : extractChild t cs with ⟨r, cs'⟩
      have hspec := extractChild_spec t cs h3
      rw [hE] at hspec
      obtain ⟨hs1, hs2, hs3⟩ := hspec
      have hsub : cs'.Sublist cs := by
        have hs := extractChild_sublist t cs
        rw [hE] at hs
        exact hs
      have hct : c.textOf ≠ t := by simpa using h
      simp only [hE]
      refine ⟨?_, ?_, hs3⟩
      · refine uniqF_cons_intro ?_ h2 hs1
        apply contains_false_of_notMem
        intro hm
        apply notMem_of_contains_false h1
        exact (List.Sublist.map CL.textOf hsub).subset hm
      · apply contains_false_of_notMem
        intro hm
        simp only [textsOf, List.map_cons, List.mem_cons] at hm
        rcases hm with he | hm'
        · exact hct he.symm
        · exact notMem_of_contains_false hs2 (by simpa [textsOf] using hm')

theorem popGE_nil (d : Nat) (roots : List CL) : popGE d [] roots = ([], roots) := rfl

theorem popGE_cons_lt {d d1 : Nat} {t1 : String} {cs1 : List CL} {rest : List PEntry}
    {roots : List CL} (h : decide (d ≤ d1) = false) :
    popGE d ((d1, t1, cs1) :: rest) roots = ((d1, t1, cs1) :: rest, roots) := by
  simp [popGE, List.takeWhile_cons, h]

theorem popGE_cons_ge_nil {d d1 : Nat} {t1 : String} {cs1 : List CL} {roots : List CL}
    (h : decide (d ≤ d1) = true) :
    popGE d [(d1, t1, cs1)] roots = ([], roots ++ [CL.node t1 [] cs1]) := by
  simp [popGE, List.takeWhile_cons, List.dropWhile_cons, h, rollupNode]

theorem popGE_cons_ge_cons {d d1 : Nat} {t1 : String} {cs1 : List CL} {d2 : Nat}
    {t2 : String} {cs2 : List CL} {r2 : List PEntry} {roots : List CL}
    (h : decide (d ≤ d1) = true) :
    popGE d ((d1, t1, cs1) :: (d2, t2, cs2) :: r2) roots
      = popGE d ((d2, t2, cs2 ++ [CL.node t1 [] cs1]) :: r2) roots := by
  cases hc2 : decide (d ≤ d2)
  · simp [popGE, List.takeWhile_cons, List.dropWhile_cons, h, hc2, rollupNode]
  · simp [popGE, List.takeWhile_cons, List.dropWhile_cons, h, hc2, rollupNode]

theorem chainOK_popGE : ∀ (stk : List PEntry) (roots : List CL) (d : Nat),
    chainOK stk roots → chainOK (popGE d stk roots).1 (popGE d stk roots).2
  | [], roots, d, h => by
    rw [popGE_nil]
    exact h
  | [(d1, t1, cs1)], roots, d, h => by
    obtain ⟨h1, h2, h3⟩ := h
    cases hc : decide (d ≤ d1)
    · rw [popGE_cons_lt hc]
      exact ⟨h1, h2, h3⟩
    · rw [popGE_cons_ge_nil hc]
      have hT : uniqT (CL.node t1 [] cs1) = true := by
        rw [uniqT_eq]
        exact h1
      exact uniqF_append_singleton roots (CL.node t1 [] cs1) h3 hT h2
  | (d1, t1, cs1) :: (d2, t2, cs2) :: r2, roots, d, h => by
    obtain ⟨h1, h2, h3⟩ := h
    cases hc : decide (d ≤ d1)
    · rw [popGE_cons_lt hc]
      exact ⟨h1, h2, h3⟩
    · rw [popGE_cons_ge_cons hc]
      apply chainOK_popGE
      obtain ⟨h4, h5, h6⟩ := h3
      refine ⟨?_, h5, h6⟩
      have hT : uniqT (CL.node t1 [] cs1) = true := by
        rw [uniqT_eq]
        exact h1
      exact uniqF_append_singleton cs2 (CL.node t1 [] cs1) h4 hT h2
termination_by stk => stk.length
decreasing_by
  simp

theorem chainOK_openEntry (d : Nat) (txt : String) (stk : List PEntry) (roots : List CL)
    (h : chainOK stk roots) :
    chainOK (openEntry d txt stk roots).1 (openEntry d txt stk roots).2 := by
  cases stk with
  | nil =>
    rcases hE : extractChild txt roots with ⟨found, rest⟩
    have hspec := extractChild_spec txt roots h
    rw [hE] at hspec
    obtain ⟨hs1, hs2, hs3⟩ := hspec
    simp only [openEntry, hE]
    refine ⟨?_, hs2, hs1⟩
    cases found with
    | none => rfl
    | some cs0 => exact hs3 cs0 rfl
  | cons e r2 =>
    obtain ⟨d2, t2, cs2⟩ := e
    obtain ⟨h1, h2, h3⟩ := h
    rcases hE : extractChild txt cs2 with ⟨found, rest⟩
    have hspec := extractChild_spec txt cs2 h1
    rw [hE] at hspec
    obtain ⟨hs1, hs2, hs3⟩ := hspec
    simp only [openEntry, hE]
    refine ⟨?_, hs2, hs1, h2, h3⟩
    cases found with
    | none => rfl
    | some cs0 => exact hs3 cs0 rfl

theorem chainOK_parseStep {st st' : List PEntry × List CL} {l : List Char}
    (h : chainOK st.1 st.2) (hstep : parseStep st l = .ok st') :
    chainOK st'.1 st'.2 := by
  cases hsig : isSig l
  · rw [parseStep_skip hsig] at hstep
    have he : st = st' := by simpa using hstep
    rw [← he]
    exact h
  · rw [parseStep_sig hsig] at hstep
    cases hleg : legalDepth (indentOf l) st.1
    · rw [hleg] at hstep
      simp at hstep
    · rw [hleg] at hstep
      simp only [if_true] at hstep
      have he : openEntry (indentOf l) (String.mk (stripChars l))
          (popGE (indentOf l) st.1 st.2).1 (popGE (indentOf l) st.1 st.2).2 = st' := by
        simpa using hstep
      rw [← he]
      exact chainOK_openEntry _ _ _ _ (chainOK_popGE st.1 st.2 (indentOf l) h)

theorem chainOK_parseFold : ∀ (ls : List (List Char)) (st st' : List PEntry × List CL),
    chainOK st.1 st.2 → parseFold ls st = .ok st' → chainOK st'.1 st'.2
  | [], st, st', h, hf => by
    have he : st = st' := by
      rw [parseFold] at hf
      simpa using hf
    rw [← he]
    exact h
  | l :: ls, st, st', h, hf => by
    rw [parseFold] at hf
    cases hstep : parseStep st l with
    | error e =>
      rw [hstep] at hf
      cases hf
    | ok st2 =>
      rw [hstep] at hf
      exact chainOK_parseFold ls st2 st' (chainOK_parseStep h hstep) hf

theorem popGE_zero_stack : ∀ (stk : List PEntry) (roots : List CL),
    (popGE 0 stk roots).1 = []
  | [], roots => rfl
  | [(d1, t1, cs1)], roots => by
    have hc : decide (0 ≤ d1) = true := by simp
    rw [popGE_cons_ge_nil hc]
  | (d1, t1, cs1) :: (d2, t2, cs2) :: r2, roots => by
    have hc : decide (0 ≤ d1) = true := by simp
    rw [popGE_cons_ge_cons hc]
    exact popGE_zero_stack _ roots
termination_by stk _ => stk.length
decreasing_by
  simp

/-- Parsing always yields a forest whose sibling texts are pairwise distinct
at every level: duplicate sibling statements are merged. -/
theorem parseLines_uniq {lines : List (List Char)} {fs : List CL}
    (h : parseLines lines = .ok fs) : uniqF fs = true := by
  rw [parseLines] at h
  cases hP : parseFold lines ([], []) with
  | error e =>
    rw [hP] at h
    cases h
  | ok st =>
    rw [hP] at h
    obtain ⟨stk, roots⟩ := st
    have hchain : chainOK stk roots :=
      chainOK_parseFold lines ([], []) (stk, roots) rfl hP
    have hres := chainOK_popGE stk roots 0 hchain
    rw [popGE_zero_stack stk roots] at hres
    have he : (popGE 0 stk roots).2 = fs := by simpa using h
    rw [← he]
    exact hres

theorem contains_true_of_mem {l : List String} {a : String} (h : a ∈ l) :
    l.contains a = true := by
  simpa using h

/-! The claims. -/

/-- C1: node identity in the diff is full-path equality, not text equality:
if a leaf text occurs in the base tree only under parent path `P1` and in the
target tree only under a different parent path `P2`, the diff classifies the
base occurrence as removed and the target occurrence as added — never as
unchanged. -/
theorem c1_path_sensitivity (bs ts : List CL) (P1 P2 : List String) (x : String)
    (h1 : pathMem bs (P1 ++ [x]) = true)
    (h2 : pathMem ts (P2 ++ [x]) = true)
    (hOnlyB : ∀ q : List String, pathMem bs (q ++ [x]) = true → q = P1)
    (hOnlyT : ∀ q : List String, pathMem ts (q ++ [x]) = true → q = P2)
    (hne : P1 ≠ P2) :
    classOf (diffForest bs ts) (P1 ++ [x]) = some .removed ∧
    classOf (diffForest bs ts) (P2 ++ [x]) = some .added := by
  have hb2 : pathMem ts (P1 ++ [x]) = false := by
    cases hx : pathMem ts (P1 ++ [x])
    · rfl
    · exact absurd (hOnlyT P1 hx) hne
  have ht2 : pathMem bs (P2 ++ [x]) = false := by
    cases hx : pathMem bs (P2 ++ [x])
    · rfl
    · exact absurd (hOnlyB P2 hx).symm hne
  constructor
  · rw [classOf_diffForest, h1, hb2]
    rfl
  · rw [classOf_diffForest, h2, ht2]
    rfl

/-- Witness for C1 at a concrete input: `"descr X"` sits at top level of the
base tree and under `"c"` in the target tree; the diff classifies the former
as removed and the latter as added. -/
theorem c1_path_sensitivity_witness :
    classOf (diffForest [CL.node "descr X" [] []]
        [CL.node "c" [] [CL.node "descr X" [] []]]) ["descr X"] = some .removed ∧
    classOf (diffForest [CL.node "descr X" [] []]
        [CL.node "c" [] [CL.node "descr X" [] []]]) ["c", "descr X"] = some .added := by
  have h := c1_path_sensitivity [CL.node "descr X" [] []]
      [CL.node "c" [] [CL.node "descr X" [] []]] [] ["c"] "descr X"
      (by decide) (by decide) ?_ ?_ (by decide)
  · exact h
  · intro q hq
    cases q with
    | nil => rfl
    | cons a q' =>
      rw [show (a :: q') ++ ["descr X"] = a :: (q' ++ ["descr X"]) from rfl] at hq
      by_cases ha : ("descr X" : String) = a
      · rw [pathMem_cons_some (findText_cons_self _ (by simpa [CL.textOf] using ha))] at hq
        have hne : (q' ++ ["descr X"]).isEmpty = false := by cases q' <;> rfl
        rw [hne, Bool.false_or] at hq
        rw [show (CL.node "descr X" [] [] : CL).childrenOf = [] from rfl] at hq
        cases q' with
        | nil => cases hq
        | cons u q'' =>
          rw [show (u :: q'') ++ ["descr X"] = u :: (q'' ++ ["descr X"]) from rfl,
            pathMem_cons_none (findText_nil u)] at hq
          cases hq
      · rw [pathMem_cons_none] at hq
        · cases hq
        · rw [findText_eq_none_iff]
          intro n hn
          have : n = CL.node "descr X" [] [] := by simpa using hn
          rw [this]
          simpa [CL.textOf] using ha
  · intro q hq
    cases q with
    | nil =>
      rw [List.nil_append] at hq
      exact absurd hq (by decide)
    | cons a q' =>
      rw [show (a :: q') ++ ["descr X"] = a :: (q' ++ ["descr X"]) from rfl] at hq
      by_cases ha : ("c" : String) = a
      · subst ha
        rw [pathMem_cons_some (findText_cons_self _ (by simp [CL.textOf]))] at hq
        have hne : (q' ++ ["descr X"]).isEmpty = false := by cases q' <;> rfl
        rw [hne, Bool.false_or] at hq
        rw [show (CL.node "c" [] [CL.node "descr X" [] []] : CL).childrenOf
            = [CL.node "descr X" [] []] from rfl] at hq
        cases q' with
        | nil => rfl
        | cons u q'' =>
          rw [show (u :: q'') ++ ["descr X"] = u :: (q'' ++ ["descr X"]) from rfl] at hq
          by_cases hu : ("descr X" : String) = u
          · rw [pathMem_cons_some (findText_cons_self _ (by simpa [CL.textOf] using hu))] at hq
            have hne2 : (q'' ++ ["descr X"]).isEmpty = false := by cases q'' <;> rfl
            rw [hne2, Bool.false_or] at hq
            rw [show (CL.node "descr X" [] [] : CL).childrenOf = [] from rfl] at hq
            cases q'' with
            | nil => cases hq
            | cons v q3 =>
              rw [show (v :: q3) ++ ["descr X"] = v :: (q3 ++ ["descr X"]) from rfl,
                pathMem_cons_none (findText_nil v)] at hq
              cases hq
          · rw [pathMem_cons_none] at hq
            · cases hq
            · rw [findText_eq_none_iff]
              intro n hn
              have : n = CL.node "descr X" [] [] := by simpa using hn
              rw [this]
              simpa [CL.textOf] using hu
      · rw [pathMem_cons_none] at hq
        · cases hq
        · rw [findText_eq_none_iff]
          intro n hn
          have : n = CL.node "c" [] [CL.node "descr X" [] []] := by simpa using hn
          rw [this]
          simpa [CL.textOf] using ha

/-- C3: remediation between a configuration and itself is empty; through the
filter entry point the rendered result is the bare trailing newline. -/
theorem c3_remediation_idempotent (X : String) (fs : List CL)
    (h : parseConfig X = .ok fs) :
    remediationLines [] [] fs fs = [] ∧
    remediation_config_filter X X = .ok "\n" := by
  have hu : uniqF fs = true := parseLines_uniq h
  have hempty : remediationLines [] [] fs fs = [] := by
    rw [remediationLines]
    exact emitForest_diff_self fs hu [] [] 0
  refine ⟨hempty, ?_⟩
  rw [remediation_config_filter, h]
  show Except.ok (remediationText [] [] fs fs ++ "\n") = Except.ok "\n"
  rw [show remediationText [] [] fs fs = "" from by rw [remediationText, hempty]; rfl]
  rfl

/-- Witness for C3 at a concrete configuration text. -/
theorem c3_remediation_idempotent_witness :
    remediationLines [] []
        [CL.node "interface Gi1" [] [CL.node "shutdown" [] []]]
        [CL.node "interface Gi1" [] [CL.node "shutdown" [] []]] = [] ∧
    remediation_config_filter "interface Gi1\n  shutdown" "interface Gi1\n  shutdown"
      = .ok "\n" :=
  c3_remediation_idempotent "interface Gi1\n  shutdown"
    [CL.node "interface Gi1" [] [CL.node "shutdown" [] []]] rfl

/-- C5 counterexample: the rollback output is not always identical to the
remediation algorithm run with base and target swapped — shared sibling
contexts are emitted in base-side order by the one and in target-side order
by the other. -/
theorem c5_rollback_swap_counterexample :
    rollback_config_filter "a\n  x\nb\n  y" "b\na"
      ≠ remediation_config_filter "b\na" "a\n  x\nb\n  y" := by
  intro h
  have h1 : rollback_config_filter "a\n  x\nb\n  y" "b\na"
      = .ok "a\n  x\nb\n  y\n" := rfl
  have h2 : remediation_config_filter "b\na" "a\n  x\nb\n  y"
      = .ok "b\n  y\na\n  x\n" := rfl
  rw [h1, h2] at h
  exact absurd (Except.ok.inj h) (by decide)

/-- C5 amended: the rollback reuses the already-computed classification with
removed and added inverted, and that inverted classification coincides with
the classification of the freshly computed swapped diff at every path (so the
two agree on the set of commands), though the emitted order of shared context
blocks may differ; no tag filtering is applied to rollback. -/
theorem c5_rollback_inverted_classification (bs ts : List CL) (p : List String) :
    classOf (invertF (diffForest bs ts)) p = classOf (diffForest ts bs) p := by
  rw [classOf_invertF, classOf_diffForest, classOf_diffForest]
  cases hb : pathMem bs p <;> cases ht : pathMem ts p <;> simp [invertCls]

/-- C6: when a parse stage fails, each entry point returns exactly the single
structured error value naming the stage and the cause, and no other output. -/
theorem c6_single_failure_value (r g e : String) :
    (parseConfig r = .error e →
      unified_diff_filter r g = .error ("Error generating unified diff: " ++ e) ∧
      remediation_config_filter r g = .error ("Error generating remediation config: " ++ e) ∧
      rollback_config_filter r g = .error ("Error generating rollback config: " ++ e)) ∧
    (∀ bt, parseConfig r = .ok bt → parseConfig g = .error e →
      unified_diff_filter r g = .error ("Error generating unified diff: " ++ e) ∧
      remediation_config_filter r g = .error ("Error generating remediation config: " ++ e) ∧
      rollback_config_filter r g = .error ("Error generating rollback config: " ++ e)) := by
  constructor
  · intro h
    refine ⟨?_, ?_, ?_⟩
    · rw [unified_diff_filter, h]
    · rw [remediation_config_filter, h]
    · rw [rollback_config_filter, h]
  · intro bt h1 h2
    refine ⟨?_, ?_, ?_⟩
    · rw [unified_diff_filter, h1, h2]
    · rw [remediation_config_filter, h1, h2]
    · rw [rollback_config_filter, h1, h2]

/-- Witness for C6 at a concrete input with inconsistent indentation. -/
theorem c6_single_failure_value_witness :
    unified_diff_filter "a\n    b\n  c" "a"
      = .error "Error generating unified diff: inconsistent indentation: c" :=
  ((c6_single_failure_value "a\n    b\n  c" "a" "inconsistent indentation: c").1 rfl).1

/-- C7: the parser returns a tree or a parse failure, and it succeeds exactly
when the pure indentation machine accepts the depth sequence of the
significant lines: each line's depth must strictly exceed the previous open
depth or match an open ancestor's depth exactly, anything else is an
ambiguous de-indent and a parse error. -/
theorem c7_parse_failure_characterization (s : String) :
    (∃ fs, parseConfig s = .ok fs) ↔ depthsOK (sigDepths (splitLines s.toList)) = true :=
  parseLines_ok_iff (splitLines s.toList)

/-- C2: within one parent context the Remediation Builder emits every removal
command before every addition command, and on the concrete scenario
running = `interface Gi1 / shutdown`, intended = `interface Gi1 /
description test` the remediation is the negation of `shutdown` under the
`interface Gi1` context followed by the addition of `description test`. -/
theorem c2_removals_before_additions :
    (∀ (inc exc : List String) (d : Nat) (ns : List DNode) (i j : Nat) (l1 l2 : EmitLine),
      (emitForest inc exc d ns)[i]? = some l1 → (emitForest inc exc d ns)[j]? = some l2 →
      l1.kind = .removed → l1.depth = d → l2.kind = .added → l2.depth = d → i < j) ∧
    remediation_config_filter "interface Gi1\n  shutdown" "interface Gi1\n  description test"
      = .ok "interface Gi1\n  no shutdown\n  description test\n" :=
  ⟨fun inc exc d ns i j l1 l2 h1 h2 k1 d1 k2 d2 =>
    emit_rem_before_add inc exc d ns i j l1 l2 h1 h2 k1 d1 k2 d2, rfl⟩

/-- Witness for C2: in the emission of the concrete scenario's classified
children, the removal (index 0) precedes the addition (index 1). -/
theorem c2_removals_before_additions_witness : (0 : Nat) < 1 :=
  c2_removals_before_additions.1 [] [] 1
    (diffForest [CL.node "shutdown" [] []] [CL.node "description test" [] []])
    0 1 ⟨1, .removed, "shutdown", []⟩ ⟨1, .added, "description test", []⟩
    rfl rfl rfl rfl rfl rfl

/-- C4: with `exclude_tags = {t}` no command line carries tag `t` (so no
command of a node tagged `t` is emitted); with `include_tags = {t}` every
command line carries tag `t`, and a maximal removed node tagged `t` does have
its negation command emitted. -/
theorem c4_tag_filtering :
    (∀ (bs ts : List CL) (t : String) (l : EmitLine),
        l ∈ remediationLines [] [t] bs ts → l.kind ≠ .unchanged →
        l.tags.contains t = false) ∧
    (∀ (bs ts : List CL) (t : String) (l : EmitLine),
        l ∈ remediationLines [t] [] bs ts → l.kind ≠ .unchanged →
        l.tags.contains t = true) ∧
    (∀ (anc : List String) (bs ts : List CL) (x t : String) (tg : List String),
        pathMem bs (anc ++ [x]) = true → pathMem ts (anc ++ [x]) = false →
        (∀ q, q ≠ [] → q <+: anc → pathMem ts q = true) →
        tagsAt bs (anc ++ [x]) = some tg → t ∈ tg →
        EmitLine.mk anc.length .removed x tg ∈ remediationLines [t] [] bs ts) := by
  refine ⟨?_, ?_, ?_⟩
  · intro bs ts t l hl hk
    rw [remediationLines] at hl
    have hp := emitForest_passes hl hk
    rw [passesTags, Bool.and_eq_true] at hp
    obtain ⟨_, h2⟩ := hp
    simp only [List.isEmpty_cons, Bool.false_or] at h2
    rw [Bool.not_eq_true'] at h2
    apply contains_false_of_notMem
    intro hm
    have h3 : ∀ x ∈ l.tags, ([t].contains x) = false := by
      intro x hx
      cases hcx : ([t].contains x)
      · rfl
      · exfalso
        have : l.tags.any (fun x => [t].contains x) = true :=
          List.any_eq_true.2 ⟨x, hx, hcx⟩
        rw [h2] at this
        cases this
    have h4 := h3 t hm
    simp at h4
  · intro bs ts t l hl hk
    rw [remediationLines] at hl
    have hp := emitForest_passes hl hk
    rw [passesTags, Bool.and_eq_true] at hp
    obtain ⟨h1, _⟩ := hp
    simp only [List.isEmpty_cons, Bool.false_or] at h1
    obtain ⟨x, hx, hfx⟩ := List.any_eq_true.1 h1
    have hxt : x = t := by simpa using hfx
    apply contains_true_of_mem
    rw [← hxt]
    exact hx
  · intro anc bs ts x t tg h1 h2 h3 h4 ht
    have hp : passesTags [t] [] tg = true := by
      rw [passesTags]
      have hany : tg.any (fun y => [t].contains y) = true :=
        List.any_eq_true.2 ⟨t, ht, by simp⟩
      simp [hany]
      exact ht
    have hres := removal_emitted anc bs ts x tg [t] [] 0 h1 h2 h3 h4 hp
    rw [remediationLines]
    simpa using hres

/-- Witness for C4's inclusion direction at a concrete tagged tree: the
removed node `x` tagged `t` under context `a` is emitted when
`include_tags = {t}`. -/
theorem c4_tag_filtering_witness :
    EmitLine.mk 1 .removed "x" ["t"] ∈
      remediationLines ["t"] [] [CL.node "a" [] [CL.node "x" ["t"] []]]
        [CL.node "a" [] []] := by
  have h := c4_tag_filtering.2.2 ["a"] [CL.node "a" [] [CL.node "x" ["t"] []]]
    [CL.node "a" [] []] "x" "t" ["t"] (by decide) (by decide) ?_ rfl (by decide)
  · simpa using h
  · intro q hq hpre
    have hqa : q = ["a"] := by
      obtain ⟨r, hr⟩ := hpre
      cases q with
      | nil => exact absurd rfl hq
      | cons a' q' =>
        rw [List.cons_append] at hr
        injection hr with h5 h6
        have h7 : q' = [] := by
          cases q' with
          | nil => rfl
          | cons u v => rw [List.cons_append] at h6; cases h6
        rw [h5, h7]
    rw [hqa]
    decide

/-- C4 counterexample: a removed node tagged `t` sitting below a parent that
is itself removed receives no command even with `include_tags = {t}` — the
parent's removal subsumes the subtree and the untagged parent is filtered
out, so the remediation is empty. -/
theorem c4_nested_removed_counterexample :
    classOf (diffForest [CL.node "a" [] [CL.node "x" ["t"] []]] []) ["a", "x"]
        = some .removed ∧
    tagsAt [CL.node "a" [] [CL.node "x" ["t"] []]] ["a", "x"] = some ["t"] ∧
    remediationLines ["t"] [] [CL.node "a" [] [CL.node "x" ["t"] []]] [] = [] :=
  ⟨rfl, rfl, rfl⟩

/-- C8: reordering siblings at any level (leaving texts and subtrees intact)
produces a diff in which every path present in the tree is classified
unchanged and no path is classified at all otherwise. -/
theorem c8_sibling_permutation_no_diff (bs ts : List CL) (hu : uniqF bs = true)
    (hp : SPerm bs ts) (p : List String) :
    classOf (diffForest bs ts) p =
      if pathMem bs p = true then some .unchanged else none := by
  rw [classOf_diffForest, ← sperm_pathMem hp hu p]
  cases hx : pathMem bs p <;> simp

/-- Witness for C8 at a concrete pair of sibling-swapped forests. -/
theorem c8_sibling_permutation_no_diff_witness :
    classOf (diffForest [CL.node "a" [] [], CL.node "b" [] []]
      [CL.node "b" [] [], CL.node "a" [] []]) ["a"] = some .unchanged := by
  have h := c8_sibling_permutation_no_diff
    [CL.node "a" [] [], CL.node "b" [] []]
    [CL.node "b" [] [], CL.node "a" [] []]
    (by decide) (SPerm.swap _ _ _) ["a"]
  rw [h]
  decide

/-- C9: the Tag Rule Engine changes no tree shape or path, rules apply in
declaration order, and appending later rules only appends further tags —
every tag attached by the earlier rules is still present, as a prefix, after
the extended rule list runs. -/
theorem c9_tag_monotonicity (rules extra : List TagRule) (anc : List String)
    (cs : List CL) :
    ((collectF anc (tagF rules anc cs)).map Prod.fst
        = (collectF anc cs).map Prod.fst) ∧
    (∀ (p ts0 : List String),
      (p, ts0) ∈ collectF anc (tagF rules anc cs) →
      ∃ ts2, (p, ts2) ∈ collectF anc (tagF (rules ++ extra) anc cs) ∧ ts0 <+: ts2) := by
  constructor
  · rw [collectF_tagF, List.map_map]
    rfl
  · intro p ts0 hm
    rw [collectF_tagF] at hm
    obtain ⟨pr, hpr, he⟩ := List.mem_map.1 hm
    obtain ⟨pr1, pr2⟩ := pr
    simp only [Prod.mk.injEq] at he
    obtain ⟨he1, he2⟩ := he
    refine ⟨pr2 ++ ruleTagsP (rules ++ extra) p, ?_, ?_⟩
    · rw [collectF_tagF]
      apply List.mem_map.2
      exact ⟨(pr1, pr2), hpr, by simp [he1]⟩
    · rw [← he2, ← he1, ruleTagsP_append, ← List.append_assoc]
      exact ⟨_, rfl⟩

/-- Witness for C9 at a concrete rule list and tree. -/
theorem c9_tag_monotonicity_witness :
    ∃ ts2, (["ab"], ts2) ∈ collectF []
        (tagF ([⟨.headAnyOf ["a"], ["t1"]⟩] ++ [⟨.headAnyOf ["a"], ["t2"]⟩]) []
          [CL.node "ab" [] []]) ∧ ["t1"] <+: ts2 :=
  (c9_tag_monotonicity [⟨.headAnyOf ["a"], ["t1"]⟩] [⟨.headAnyOf ["a"], ["t2"]⟩]
    [] [CL.node "ab" [] []]).2 ["ab"] ["t1"] (by decide)

/-- C10: on success every entry point returns a string with a trailing
newline; on identical inputs the unified diff and the remediation are exactly
the one-character string of a newline. -/
theorem c10_trailing_newline :
    (∀ r g s, unified_diff_filter r g = .ok s → ∃ u, s = u ++ "\n") ∧
    (∀ r g s, remediation_config_filter r g = .ok s → ∃ u, s = u ++ "\n") ∧
    (∀ r g s, rollback_config_filter r g = .ok s → ∃ u, s = u ++ "\n") ∧
    (∀ X fs, parseConfig X = .ok fs →
      unified_diff_filter X X = .ok "\n" ∧
      remediation_config_filter X X = .ok "\n") := by
  refine ⟨?_, ?_, ?_, ?_⟩
  · intro r g s h
    rw [unified_diff_filter] at h
    cases h1 : parseConfig r with
    | error e => rw [h1] at h; cases h
    | ok bt =>
      rw [h1] at h
      cases h2 : parseConfig g with
      | error e => rw [h2] at h; cases h
      | ok tt =>
        rw [h2] at h
        exact ⟨_, (Except.ok.inj h).symm⟩
  · intro r g s h
    rw [remediation_config_filter] at h
    cases h1 : parseConfig r with
    | error e => rw [h1] at h; cases h
    | ok bt =>
      rw [h1] at h
      cases h2 : parseConfig g with
      | error e => rw [h2] at h; cases h
      | ok tt =>
        rw [h2] at h
        exact ⟨_, (Except.ok.inj h).symm⟩
  · intro r g s h
    rw [rollback_config_filter] at h
    cases h1 : parseConfig r with
    | error e => rw [h1] at h; cases h
    | ok bt =>
      rw [h1] at h
      cases h2 : parseConfig g with
      | error e => rw [h2] at h; cases h
      | ok tt =>
        rw [h2] at h
        exact ⟨_, (Except.ok.inj h).symm⟩
  · intro X fs h
    have hu := parseLines_uniq h
    constructor
    · rw [unified_diff_filter, h]
      show Except.ok (String.intercalate "\n" (viewList 0 (diffForest fs fs)) ++ "\n")
        = Except.ok "\n"
      rw [viewList_diff_self fs hu 0]
      rfl
    · rw [remediation_config_filter, h]
      show Except.ok (remediationText [] [] fs fs ++ "\n") = Except.ok "\n"
      rw [show remediationText [] [] fs fs = "" from by
        rw [remediationText, remediationLines, emitForest_diff_self fs hu [] [] 0]
        rfl]
      rfl

/-- Witness for C10 at concrete inputs. -/
theorem c10_trailing_newline_witness :
    (∃ u, ("- a\n+ b\n" : String) = u ++ "\n") ∧
    (unified_diff_filter "a" "a" = .ok "\n" ∧
      remediation_config_filter "a" "a" = .ok "\n") :=
  ⟨c10_trailing_newline.1 "a" "b" "- a\n+ b\n" rfl,
    c10_trailing_newline.2.2.2 "a" [CL.node "a" [] []] rfl⟩

end NetCfg
